import Mathlib

/-!
Shallow embedding of `compact_bitset.h` (cculianu/compact_bitset).

The C++ class `compact_bitset<N, T>` packs `N` logical bits into an array of
unsigned words of type `T`; the default `T` has 8, 16, 32 or 64 bits depending
on `N`.  We embed the backing array as a `List Nat` whose entries play the role
of the `T` words (a well-formed state has length `NWords` and every entry
`< 2 ^ w` where `w` is the bit width of `T`).  Machine arithmetic on `T` is
translated with explicit masking by `AllMask = 2 ^ w - 1` exactly where the
C++ code relies on the fixed width of `T` (e.g. `~word`).
All definitions are parametrised by the capacity `N` and the word width `w`;
`TBitsFor N` is the width of the default `T` chosen by the template.
-/

namespace CompactBitset

/-- Error kinds raised by the C++ code: `std::out_of_range`,
`std::invalid_argument` and `std::overflow_error`. -/
inductive Err where
  | OutOfRange
  | InvalidArgument
  | Overflow
deriving DecidableEq

/-- Width in bits of the default word type `T` selected by the template:
`uint8_t` for `N ≤ 8`, `uint16_t` for `N ≤ 16`, `uint32_t` for `N ≤ 32`,
else `uint64_t`. -/
def TBitsFor (N : Nat) : Nat :=
  if N ≤ 8 then 8 else if N ≤ 16 then 16 else if N ≤ 32 then 32 else 64

/-- `NFullyUsedWords = N / TBits` from the source. -/
def NFullyUsedWords (N w : Nat) : Nat := N / w

/-- `NBitsRem = N % TBits` from the source. -/
def NBitsRem (N w : Nat) : Nat := N % w

/-- `NWords = NFullyUsedWords + bool(NBitsRem)` from the source. -/
def NWords (N w : Nat) : Nat :=
  NFullyUsedWords N w + (if NBitsRem N w = 0 then 0 else 1)

/-- `AllMask = ~T(0)`: the all-ones pattern of a `w`-bit word. -/
def AllMask (w : Nat) : Nat := 2 ^ w - 1

/-- `LastWordMask = (T(1) << NBitsRem) - 1`; since `NBitsRem < w` the shift
does not overflow the `w`-bit word, so the value is `2 ^ (N % w) - 1`. -/
def LastWordMask (N w : Nat) : Nat := 2 ^ NBitsRem N w - 1

/-- Reading one bit through the proxy `reference`:
`bool(word >> bpos & 0x1)` where `word = data[i / TBits]`, `bpos = i % TBits`.
This is `operator[] const`. -/
def getBit (w : Nat) (d : List Nat) (i : Nat) : Bool :=
  (d.getD (i / w) 0).testBit (i % w)

/-- Writing one bit through the proxy `reference`:
`word = b ? word | T{1} << bpos : word & ~(T{1} << bpos)`.  The complement of
the single-bit mask on a `w`-bit word is `AllMask ^^^ (1 <<< bpos)`. -/
def bitSet (w : Nat) (d : List Nat) (i : Nat) (b : Bool) : List Nat :=
  d.set (i / w)
    (if b then d.getD (i / w) 0 ||| (1 <<< (i % w))
     else d.getD (i / w) 0 &&& (AllMask w ^^^ (1 <<< (i % w))))

/-- The default constructor `compact_bitset() : data{{}}`: all words zero. -/
def mk0 (N w : Nat) : List Nat := List.replicate (NWords N w) 0

/-- Well-formedness of the raw word array as C++ guarantees it by typing:
right number of words, each of `w` bits. -/
def WordsOk (N w : Nat) (d : List Nat) : Prop :=
  d.length = NWords N w ∧ ∀ x ∈ d, x < 2 ^ w

/-- The unused-bit invariant: every bit position `≥ N` inside the backing
array reads as `0`. -/
def UnusedZero (N w : Nat) (d : List Nat) : Prop :=
  ∀ i, i < NWords N w * w → N ≤ i → getBit w d i = false

/-- Wf states: the states realizable by the C++ object (array of `NWords`
`w`-bit words) that satisfy the documented unused-bit invariant. -/
def Wf (N w : Nat) (d : List Nat) : Prop :=
  WordsOk N w d ∧ UnusedZero N w d

instance (N w : Nat) (d : List Nat) : Decidable (WordsOk N w d) := by
  unfold WordsOk; infer_instance

instance (N w : Nat) (d : List Nat) : Decidable (UnusedZero N w d) := by
  unfold UnusedZero
  infer_instance

instance (N w : Nat) (d : List Nat) : Decidable (Wf N w d) := by
  unfold Wf; infer_instance

-- basic facts about the geometry

theorem le_NWords_mul (N w : Nat) (hw : 0 < w) : N ≤ NWords N w * w := by
  have hdm := Nat.div_add_mod N w
  have hlt := Nat.mod_lt N hw
  unfold NWords NFullyUsedWords NBitsRem
  rcases eq_or_ne (N % w) 0 with h | h
  · simp only [h, if_pos rfl, Nat.add_zero]
    have heq : N = N / w * w := by
      conv_lhs => rw [← hdm]
      rw [h, Nat.add_zero, Nat.mul_comm]
    exact Nat.le_of_eq heq
  · simp only [h, if_neg h]
    calc N = w * (N / w) + N % w := hdm.symm
    _ ≤ w * (N / w) + w := Nat.add_le_add_left (Nat.le_of_lt hlt) _
    _ = (N / w + 1) * w := by ring

theorem TBitsFor_pos (N : Nat) : 0 < TBitsFor N := by
  unfold TBitsFor
  repeat' split
  all_goals decide

theorem TBitsFor_dvd8 (N : Nat) : 8 ∣ TBitsFor N := by
  unfold TBitsFor
  repeat' split
  all_goals decide

-- list access helpers

theorem getD_set_self {d : List Nat} {k v : Nat} (h : k < d.length) :
    (d.set k v).getD k 0 = v := by
  simp [List.getD_eq_getElem?_getD, List.getElem?_set_self h]

theorem getD_set_ne {d : List Nat} {k k' v : Nat} (h : k ≠ k') :
    (d.set k v).getD k' 0 = d.getD k' 0 := by
  simp [List.getD_eq_getElem?_getD, List.getElem?_set_ne h]

theorem testBit_one_shiftLeft (p j : Nat) :
    Nat.testBit (1 <<< p) j = decide (j = p) := by
  rw [Nat.shiftLeft_eq, Nat.one_mul, Nat.testBit_two_pow]
  simp [eq_comm]

theorem getBit_out {w : Nat} (hw : 0 < w) {d : List Nat} {i : Nat}
    (h : d.length * w ≤ i) : getBit w d i = false := by
  unfold getBit
  have hk : d.length ≤ i / w := (Nat.le_div_iff_mul_le hw).2 h
  rw [List.getD_eq_getElem?_getD, List.getElem?_eq_none hk]
  simp

theorem length_bitSet (w : Nat) (d : List Nat) (i : Nat) (b : Bool) :
    (bitSet w d i b).length = d.length := List.length_set ..

theorem getBit_bitSet {w : Nat} (hw : 0 < w) (d : List Nat) (i j : Nat) (b : Bool)
    (hi : i < d.length * w) :
    getBit w (bitSet w d i b) j = if j = i then b else getBit w d j := by
  have hk : i / w < d.length := (Nat.div_lt_iff_lt_mul hw).2 hi
  have hpm : i % w < w := Nat.mod_lt _ hw
  unfold getBit bitSet
  by_cases hj : j = i
  · subst hj
    rw [if_pos rfl, getD_set_self hk]
    cases b with
    | true =>
      rw [if_pos rfl, Nat.testBit_or, testBit_one_shiftLeft]
      simp
    | false =>
      rw [if_neg (fun h => Bool.noConfusion h), Nat.testBit_and, Nat.testBit_xor,
        testBit_one_shiftLeft]
      unfold AllMask
      rw [Nat.testBit_two_pow_sub_one]
      simp [hpm]
  · rw [if_neg hj]
    by_cases hkk : j / w = i / w
    · rw [hkk, getD_set_self hk]
      have hne : j % w ≠ i % w := by
        intro hmm
        apply hj
        calc j = w * (j / w) + j % w := (Nat.div_add_mod j w).symm
        _ = w * (i / w) + i % w := by rw [hkk, hmm]
        _ = i := Nat.div_add_mod i w
      have hjm : j % w < w := Nat.mod_lt _ hw
      cases b with
      | true =>
        rw [if_pos rfl, Nat.testBit_or, testBit_one_shiftLeft]
        simp [hne]
      | false =>
        rw [if_neg (fun h => Bool.noConfusion h), Nat.testBit_and, Nat.testBit_xor,
          testBit_one_shiftLeft]
        unfold AllMask
        rw [Nat.testBit_two_pow_sub_one]
        simp [hne, hjm]
    · rw [getD_set_ne (fun hmm => hkk hmm.symm)]

theorem words_lt_bitSet {w : Nat} (hw : 0 < w) {d : List Nat} {i : Nat} {b : Bool}
    (hd : ∀ x ∈ d, x < 2 ^ w) : ∀ x ∈ bitSet w d i b, x < 2 ^ w := by
  intro x hx
  rcases List.mem_or_eq_of_mem_set hx with hmem | hval
  · exact hd x hmem
  · subst hval
    cases b with
    | true =>
      rw [if_pos rfl]
      apply Nat.or_lt_two_pow
      · by_cases hk : i / w < d.length
        · have hmem2 : d.getD (i / w) 0 ∈ d := by
            rw [List.getD_eq_getElem?_getD, List.getElem?_eq_getElem hk]
            exact List.getElem_mem hk
          exact hd _ hmem2
        · rw [List.getD_eq_getElem?_getD, List.getElem?_eq_none (by omega)]
          simp
      · rw [Nat.shiftLeft_eq, Nat.one_mul]
        exact Nat.pow_lt_pow_right (by norm_num) (Nat.mod_lt _ hw)
    | false =>
      rw [if_neg (fun h => Bool.noConfusion h)]
      apply Nat.and_lt_two_pow
      apply Nat.xor_lt_two_pow
      · exact Nat.sub_lt (Nat.pos_pow_of_pos w (by norm_num)) (by norm_num)
      · rw [Nat.shiftLeft_eq, Nat.one_mul]
        exact Nat.pow_lt_pow_right (by norm_num) (Nat.mod_lt _ hw)

/-- Bit-assignment loop: assigns bit `c + i` the value `f i` for each
`i < m` in ascending order, exactly like the `for` loops in the C++
bitwise operators and shift operators. -/
def fillRange (w : Nat) (c m : Nat) (f : Nat → Bool) (init : List Nat) : List Nat :=
  (List.range m).foldl (fun r i => bitSet w r (c + i) (f i)) init

theorem length_fillRange (w c m : Nat) (f : Nat → Bool) (init : List Nat) :
    (fillRange w c m f init).length = init.length := by
  induction m with
  | zero => rfl
  | succ m ih =>
    unfold fillRange at *
    rw [List.range_succ, List.foldl_append]
    simpa [length_bitSet] using ih

theorem getBit_fillRange {w : Nat} (hw : 0 < w) (c m : Nat) (f : Nat → Bool)
    (init : List Nat) (j : Nat) (hcm : ∀ i, i < m → c + i < init.length * w) :
    getBit w (fillRange w c m f init) j =
      if c ≤ j ∧ j < c + m then f (j - c) else getBit w init j := by
  induction m with
  | zero =>
    rw [if_neg (by omega)]
    rfl
  | succ m ih =>
    have hstep : fillRange w c (m + 1) f init
        = bitSet w (fillRange w c m f init) (c + m) (f m) := by
      unfold fillRange
      rw [List.range_succ, List.foldl_append]
      rfl
    rw [hstep, getBit_bitSet hw _ _ _ _
      (by rw [length_fillRange]; exact hcm m (by omega))]
    by_cases hj : j = c + m
    · subst hj
      rw [if_pos rfl, if_pos (by omega)]
      congr 1
      omega
    · rw [if_neg hj, ih (fun i hi => hcm i (by omega))]
      by_cases hin : c ≤ j ∧ j < c + m
      · rw [if_pos hin, if_pos (by omega)]
      · rw [if_neg hin, if_neg (by omega)]

theorem words_lt_fillRange {w : Nat} (hw : 0 < w) (c m : Nat) (f : Nat → Bool)
    {init : List Nat} (hd : ∀ x ∈ init, x < 2 ^ w) :
    ∀ x ∈ fillRange w c m f init, x < 2 ^ w := by
  induction m with
  | zero => exact hd
  | succ m ih =>
    unfold fillRange at *
    rw [List.range_succ, List.foldl_append]
    exact words_lt_bitSet hw ih

/-- Re-masking of the last word, `ret.data[NWords-1] &= ret.LastWordMask`,
performed only when `LastWordMask != 0` (an `if constexpr` in the source). -/
def maskLast (N w : Nat) (d : List Nat) : List Nat :=
  if LastWordMask N w ≠ 0 then
    d.set (NWords N w - 1) (d.getD (NWords N w - 1) 0 &&& LastWordMask N w)
  else d

theorem length_maskLast (N w : Nat) (d : List Nat) :
    (maskLast N w d).length = d.length := by
  unfold maskLast
  split <;> simp

theorem words_lt_maskLast {N w : Nat} {d : List Nat} (hd : ∀ x ∈ d, x < 2 ^ w)
    (hw : 0 < w) : ∀ x ∈ maskLast N w d, x < 2 ^ w := by
  unfold maskLast
  split
  · intro x hx
    rcases List.mem_or_eq_of_mem_set hx with hmem | hval
    · exact hd x hmem
    · subst hval
      apply Nat.and_lt_two_pow
      unfold LastWordMask NBitsRem
      calc 2 ^ (N % w) - 1 < 2 ^ (N % w) :=
        Nat.sub_lt (Nat.pos_pow_of_pos _ (by norm_num)) (by norm_num)
      _ ≤ 2 ^ w := Nat.pow_le_pow_right (by norm_num) (Nat.le_of_lt (Nat.mod_lt _ hw))
  · exact hd

/-- `compact_bitset(unsigned long long val)`: the loop visits the set bits of
`val` lowest-first via `ffs` and assigns `(*this)[bit] = true`, breaking out at
the first bit index `≥ N` (the break is compiled in only when `N < 64`).
Since `ffs` yields ascending indices, breaking at the first index `≥ N` equals
skipping every index `≥ N`; `val` is an `unsigned long long`, so only bit
indices `< 64` exist. -/
def ofVal (N w : Nat) (val : Nat) : List Nat :=
  (List.range 64).foldl
    (fun d b => if val.testBit b && decide (b < N) then bitSet w d b true else d)
    (mk0 N w)

/-- Bulk `set()`: assigns `AllMask` to every fully used word and, when
`LastWordMask != 0`, assigns `LastWordMask` to the word at index
`NFullyUsedWords`. -/
def setAll (N w : Nat) (d : List Nat) : List Nat :=
  let r := (List.range (NFullyUsedWords N w)).foldl (fun r k => r.set k (AllMask w)) d
  if LastWordMask N w ≠ 0 then r.set (NFullyUsedWords N w) (LastWordMask N w) else r

/-- Bulk `flip()` (also `operator~`, which copies then flips in place):
`data[w] = ~data[w]` for the fully used words and
`data[w] = ~data[w] & LastWordMask` for the last partial word; on a `w`-bit
word, `~x` is `AllMask ^^^ x`. -/
def flipAll (N w : Nat) (d : List Nat) : List Nat :=
  let r := (List.range (NFullyUsedWords N w)).foldl
    (fun r k => r.set k (AllMask w ^^^ r.getD k 0)) d
  if LastWordMask N w ≠ 0 then
    r.set (NFullyUsedWords N w)
      ((AllMask w ^^^ r.getD (NFullyUsedWords N w) 0) &&& LastWordMask N w)
  else r

/-- `operator&`: starting from an uninitialized array `junk`, assigns
`ret[i] = lhs[i] & rhs[i]` for every `i < N`, then re-masks the last word. -/
def bitAnd (N w : Nat) (junk lhs rhs : List Nat) : List Nat :=
  maskLast N w (fillRange w 0 N (fun i => getBit w lhs i && getBit w rhs i) junk)

/-- `operator|`, same shape as `operator&`. -/
def bitOr (N w : Nat) (junk lhs rhs : List Nat) : List Nat :=
  maskLast N w (fillRange w 0 N (fun i => getBit w lhs i || getBit w rhs i) junk)

/-- `operator^`, same shape as `operator&`. -/
def bitXor (N w : Nat) (junk lhs rhs : List Nat) : List Nat :=
  maskLast N w (fillRange w 0 N (fun i => xor (getBit w lhs i) (getBit w rhs i)) junk)

/-- `operator<<`: starting from an uninitialized array, zero the positions
`[0, min(shift, N))`, copy `ret[i + shift] = (*this)[i]` for `i + shift < N`,
then re-mask the last word. -/
def shl (N w : Nat) (junk d : List Nat) (s : Nat) : List Nat :=
  maskLast N w (fillRange w s (N - s) (fun i => getBit w d i)
    (fillRange w 0 (min s N) (fun _ => false) junk))

/-- `operator>>`: with `endpos = N >= shift ? N - shift : 0` (which is `N - s`
in truncated `Nat` subtraction), zero the positions `[endpos, N)`, copy
`ret[i] = (*this)[i + shift]` for `i < endpos`, then re-mask the last word. -/
def shr (N w : Nat) (junk d : List Nat) (s : Nat) : List Nat :=
  maskLast N w (fillRange w 0 (N - s) (fun i => getBit w d (i + s))
    (fillRange w (N - s) (N - (N - s)) (fun _ => false) junk))

/-- `operator==`: word-for-word comparison of the fully used words, then the
last partial word compared under `LastWordMask` (when `LastWordMask != 0`). -/
def eqOp (N w : Nat) (d1 d2 : List Nat) : Bool :=
  ((List.range (NFullyUsedWords N w)).all fun k => d1.getD k 0 == d2.getD k 0) &&
  (if LastWordMask N w ≠ 0 then
    (d1.getD (NFullyUsedWords N w) 0 &&& LastWordMask N w)
      == (d2.getD (NFullyUsedWords N w) 0 &&& LastWordMask N w)
  else true)

/-- Portable fallback of `get_popcount`: counts the positions `i < w` with
`word & (1 << i)` non-zero.  The intrinsic path returns the same count. -/
def popcountFallback (w : Nat) (word : Nat) : Nat :=
  (List.range w).foldl (fun c i => if word.testBit i then c + 1 else c) 0

/-- `count()`: popcount of every fully used word plus popcount of the masked
last word. -/
def countOp (N w : Nat) (d : List Nat) : Nat :=
  (List.range (NFullyUsedWords N w)).foldl
    (fun c k => c + popcountFallback w (d.getD k 0)) 0
  + (if LastWordMask N w ≠ 0 then
      popcountFallback w (d.getD (NWords N w - 1) 0 &&& LastWordMask N w)
    else 0)

/-- `any()`: true iff a fully used word is non-zero or the masked last word is
non-zero. -/
def anyOp (N w : Nat) (d : List Nat) : Bool :=
  ((List.range (NFullyUsedWords N w)).any fun k => d.getD k 0 != 0) ||
  (if LastWordMask N w ≠ 0 then (d.getD (NFullyUsedWords N w) 0 &&& LastWordMask N w) != 0
   else false)

/-- `none()` is `!any()`. -/
def noneOp (N w : Nat) (d : List Nat) : Bool := !anyOp N w d

/-- `all()`: every fully used word equals `AllMask` and the masked last word
equals `LastWordMask`. -/
def allOp (N w : Nat) (d : List Nat) : Bool :=
  ((List.range (NFullyUsedWords N w)).all fun k => d.getD k 0 == AllMask w) &&
  (if LastWordMask N w ≠ 0 then
    (d.getD (NFullyUsedWords N w) 0 &&& LastWordMask N w) == LastWordMask N w
  else true)

/-- `to_string(zero, one)`: builds a string of `N` copies of `zero`, then
overwrites position `bit` with `one` for every set bit. -/
def to_string (N w : Nat) (zero one : Char) (d : List Nat) : List Char :=
  (List.range N).foldl (fun s bit => if getBit w d bit then s.set bit one else s)
    (List.replicate N zero)

/-- Byte `j` of the raw little-endian byte view `bits()` of the word array
(each `w`-bit word contributes `w / 8` bytes, least significant first). -/
def byteAt (w : Nat) (d : List Nat) (j : Nat) : Nat :=
  (d.getD (j / (w / 8)) 0 >>> (8 * (j % (w / 8)))) &&& 255

/-- `bits_size()`: number of bytes in the `bits()` view. -/
def bytesTotal (N w : Nat) : Nat := NWords N w * (w / 8)

/-- One `std::size_t`-sized chunk of `hash_code`'s loop: `memcpy` of
`min(end - cur, 8)` bytes into a zeroed 8-byte little-endian temporary. -/
def chunkAt (N w : Nat) (d : List Nat) (cur : Nat) : Nat :=
  (List.range 8).foldl
    (fun t b =>
      if cur + b < bytesTotal N w then t ||| (byteAt w d (cur + b) <<< (8 * b)) else t) 0

/-- `hash_code()`: XOR-fold of the 8-byte chunks of the raw byte view
(`sizeof(std::size_t) == 8` on the 64-bit reference platform). -/
def hash_code (N w : Nat) (d : List Nat) : Nat :=
  (List.range ((bytesTotal N w + 7) / 8)).foldl
    (fun h c => h ^^^ chunkAt N w d (8 * c)) 0

/-- `handle_word` inside `do_int_convert`: visits the set bits of `word`
lowest-first via `ffs`, sets destination bit `bitOffset + b`, and returns as
soon as a destination index reaches `IntBits`; because the indices ascend,
that equals skipping every destination index `≥ IntBits`. -/
def handle_word (w intBits bitOffset word ret : Nat) : Nat :=
  (List.range w).foldl
    (fun r b =>
      if word.testBit b && decide (bitOffset + b < intBits) then
        r ||| (1 <<< (bitOffset + b))
      else r) ret

/-- `do_int_convert<Int>`: returns `0` for `N == 0`; otherwise feeds every
fully used word (while the running bit offset `k * w` is below `IntBits`) and
then the masked last word to `handle_word`. -/
def do_int_convert (N w intBits : Nat) (d : List Nat) : Nat :=
  if N = 0 then 0
  else
    let r1 := (List.range (NFullyUsedWords N w)).foldl
      (fun r k => if k * w < intBits then handle_word w intBits (k * w) (d.getD k 0) r else r) 0
    if LastWordMask N w ≠ 0 ∧ NFullyUsedWords N w * w < intBits then
      handle_word w intBits (NFullyUsedWords N w * w)
        (d.getD (NWords N w - 1) 0 &&& LastWordMask N w) r1
    else r1

/-- `to_ullong()`: throws `std::overflow_error` when `N` exceeds the 64 bits
of `unsigned long long`, else extracts via `do_int_convert`. -/
def to_ullong (N w : Nat) (d : List Nat) : Except Err Nat :=
  if 64 < N then .error .Overflow else .ok (do_int_convert N w 64 d)

/-- `to_ulong()`: identical shape; `unsigned long` also has 64 bits on the
LP64 reference platform. -/
def to_ulong (N w : Nat) (d : List Nat) : Except Err Nat :=
  if 64 < N then .error .Overflow else .ok (do_int_convert N w 64 d)

/-- Loop body of the string constructor: for each remaining source character
(the sub-range `[pos, min(n, str.size()))` of the source string) while
`j < N`: a `one` character sets bit `j`, a `zero` character leaves the
already-zero bit, anything else throws `std::invalid_argument`. -/
def ctorFill (N w : Nat) (zero one : Char) : List Char → Nat → List Nat → Except Err (List Nat)
  | [], _, d => .ok d
  | ch :: rest, j, d =>
    if j < N then
      if ch = one then ctorFill N w zero one rest (j + 1) (bitSet w d j true)
      else if ch = zero then ctorFill N w zero one rest (j + 1) d
      else .error .InvalidArgument
    else .ok d

/-- The string/substring constructor: throws `std::out_of_range` when
`pos >= str.size() && N`; then sets `n = min(n, str.size())` and copies from
source indices `[pos, n)` — the characters `(str.take n).drop pos`, since
`List.take` clamps at the length — into bits `0, 1, ...`. -/
def ctorStr (N w : Nat) (str : List Char) (pos n : Nat) (zero one : Char) :
    Except Err (List Nat) :=
  if str.length ≤ pos ∧ N ≠ 0 then .error .OutOfRange
  else ctorFill N w zero one ((str.take n).drop pos) 0 (mk0 N w)

/-- Loop of `operator>>` with `fuel = N - i` remaining iterations: at
end-of-input or at the first character that is neither `one` nor `zero` the
loop breaks, setting the fail flag iff no character was consumed (`i == 0`);
otherwise the character is consumed and assigned to bit `i`. -/
def readLoop (N w : Nat) (one zero : Char) :
    Nat → Nat → List Nat → List Char → List Nat × List Char × Bool
  | 0, _, d, inp => (d, inp, false)
  | fuel + 1, i, d, inp =>
    match inp with
    | [] => (d, inp, i == 0)
    | ch :: rest =>
      if ch ≠ one ∧ ch ≠ zero then (d, ch :: rest, i == 0)
      else readLoop N w one zero fuel (i + 1) (bitSet w d i (ch == one)) rest

/-- `operator>>`: widens `'1'`/`'0'`, resets the target to all-zero, then runs
the consumption loop for at most `N` characters.  Returns the final backing
array, the unconsumed remainder of the stream, and the fail flag. -/
def readOp (N w : Nat) (inp : List Char) : List Nat × List Char × Bool :=
  readLoop N w '1' '0' N 0 (mk0 N w) inp

-- facts about the geometry and the default state

theorem LastWordMask_eq_zero_iff (N w : Nat) : LastWordMask N w = 0 ↔ N % w = 0 := by
  unfold LastWordMask NBitsRem
  constructor
  · intro h
    by_contra hne
    have h2 : 2 ^ 1 ≤ 2 ^ (N % w) := Nat.pow_le_pow_right (by norm_num) (by omega)
    omega
  · intro h
    rw [h]
    norm_num

theorem NWords_of_rem_ne (N w : Nat) (h : N % w ≠ 0) : NWords N w = N / w + 1 := by
  unfold NWords NFullyUsedWords NBitsRem
  rw [if_neg h]

theorem NWords_of_rem_eq (N w : Nat) (h : N % w = 0) : NWords N w = N / w := by
  unfold NWords NFullyUsedWords NBitsRem
  rw [if_pos h]
  omega

theorem NWords_mul_of_rem_eq (N w : Nat) (h : N % w = 0) : NWords N w * w = N := by
  have hdm := Nat.div_add_mod N w
  rw [NWords_of_rem_eq N w h, Nat.mul_comm]
  omega

theorem length_mk0 (N w : Nat) : (mk0 N w).length = NWords N w := List.length_replicate ..

theorem getBit_mk0 (N w : Nat) (i : Nat) : getBit w (mk0 N w) i = false := by
  unfold getBit mk0
  rw [List.getD_eq_getElem?_getD, List.getElem?_replicate]
  split <;> simp

theorem words_lt_mk0 (N w : Nat) : ∀ x ∈ mk0 N w, x < 2 ^ w := by
  intro x hx
  rw [List.eq_of_mem_replicate hx]
  exact Nat.pos_pow_of_pos w (by norm_num)

theorem Wf_mk0 (N w : Nat) : Wf N w (mk0 N w) :=
  ⟨⟨length_mk0 N w, words_lt_mk0 N w⟩, fun i _ _ => getBit_mk0 N w i⟩

-- getBit through a single whole-word store

theorem getBit_set_word_ne {w : Nat} {d : List Nat} {k v j : Nat} (h : j / w ≠ k) :
    getBit w (d.set k v) j = getBit w d j := by
  unfold getBit
  rw [getD_set_ne (fun hh => h hh.symm)]

theorem getBit_set_word_eq {w : Nat} {d : List Nat} {k v j : Nat} (h : j / w = k)
    (hk : k < d.length) : getBit w (d.set k v) j = v.testBit (j % w) := by
  unfold getBit
  rw [h, getD_set_self hk]

-- last word indexing

theorem div_eq_last {N w j : Nat} (hw : 0 < w) (h1 : N ≤ j) (h2 : j < (N / w + 1) * w) :
    j / w = N / w := by
  have hle : N / w ≤ j / w := Nat.div_le_div_right h1
  have hlt : j / w < N / w + 1 := (Nat.div_lt_iff_lt_mul hw).2 h2
  omega

theorem getBit_maskLast_lt {N w : Nat} (hw : 0 < w) {d : List Nat}
    (hlen : d.length = NWords N w) {j : Nat} (hj : j < N) :
    getBit w (maskLast N w d) j = getBit w d j := by
  unfold maskLast
  split
  case isTrue h =>
    have hrem : N % w ≠ 0 := fun h0 => h ((LastWordMask_eq_zero_iff N w).2 h0)
    have hNW := NWords_of_rem_ne N w hrem
    by_cases hk : j / w = N / w
    · have h1 : j / w = NWords N w - 1 := by rw [hNW, Nat.add_sub_cancel]; exact hk
      have h2 : NWords N w - 1 < d.length := by
        rw [hlen, hNW, Nat.add_sub_cancel]
        exact Nat.lt_succ_self _
      rw [getBit_set_word_eq h1 h2]
      have e1 := Nat.div_add_mod j w
      have e2 := Nat.div_add_mod N w
      rw [hk] at e1
      have hmlt : j % w < N % w := by omega
      unfold LastWordMask NBitsRem
      rw [Nat.testBit_and, Nat.testBit_two_pow_sub_one]
      simp only [hmlt, decide_True, Bool.and_true]
      unfold getBit
      rw [← h1]
    · have h1 : j / w ≠ NWords N w - 1 := by rw [hNW, Nat.add_sub_cancel]; exact hk
      rw [getBit_set_word_ne h1]
  case isFalse h => rfl

theorem getBit_maskLast_ge {N w : Nat} (hw : 0 < w) {d : List Nat}
    (hlen : d.length = NWords N w) {j : Nat} (hj : N ≤ j) :
    getBit w (maskLast N w d) j = false := by
  by_cases hout : d.length * w ≤ j
  · exact getBit_out hw (by rw [length_maskLast]; exact hout)
  · have hj2 : j < NWords N w * w := by rw [← hlen]; omega
    have hrem : N % w ≠ 0 := by
      intro h0
      have := NWords_mul_of_rem_eq N w h0
      omega
    have hNW := NWords_of_rem_ne N w hrem
    unfold maskLast
    rw [if_pos (fun h0 => hrem ((LastWordMask_eq_zero_iff N w).1 h0))]
    have hj3 : j < (N / w + 1) * w := by rw [← hNW]; exact hj2
    have hk : j / w = N / w := div_eq_last hw hj hj3
    have h1 : j / w = NWords N w - 1 := by rw [hNW, Nat.add_sub_cancel]; exact hk
    have h2 : NWords N w - 1 < d.length := by
      rw [hlen, hNW, Nat.add_sub_cancel]
      exact Nat.lt_succ_self _
    rw [getBit_set_word_eq h1 h2]
    have e1 := Nat.div_add_mod j w
    have e2 := Nat.div_add_mod N w
    rw [hk] at e1
    have hmge : N % w ≤ j % w := by omega
    unfold LastWordMask NBitsRem
    rw [Nat.testBit_and, Nat.testBit_two_pow_sub_one]
    simp [Nat.not_lt.2 hmge]

theorem Wf_maskLast_of {N w : Nat} (hw : 0 < w) {st : List Nat}
    (hlen : st.length = NWords N w) (hwords : ∀ x ∈ st, x < 2 ^ w) :
    Wf N w (maskLast N w st) := by
  refine ⟨⟨?_, words_lt_maskLast hwords hw⟩, fun i _ hi2 => getBit_maskLast_ge hw hlen hi2⟩
  rw [length_maskLast]
  exact hlen

-- characterization of the three binary bitwise operators

theorem getBit_binop {N w : Nat} (hw : 0 < w) (f : Nat → Bool) {junk : List Nat}
    (hlen : junk.length = NWords N w) (j : Nat) :
    getBit w (maskLast N w (fillRange w 0 N f junk)) j
      = if j < N then f j else false := by
  have hbound : ∀ i, i < N → 0 + i < junk.length * w := by
    intro i hi
    have := le_NWords_mul N w hw
    rw [hlen]
    omega
  have hflen : (fillRange w 0 N f junk).length = NWords N w := by
    rw [length_fillRange]; exact hlen
  by_cases hj : j < N
  · rw [if_pos hj, getBit_maskLast_lt hw hflen hj,
      getBit_fillRange hw 0 N f junk j hbound, if_pos (by omega)]
    simp
  · rw [if_neg hj, getBit_maskLast_ge hw hflen (by omega)]

theorem getBit_bitAnd {N w : Nat} (hw : 0 < w) {junk : List Nat}
    (hlen : junk.length = NWords N w) (lhs rhs : List Nat) (j : Nat) :
    getBit w (bitAnd N w junk lhs rhs) j
      = if j < N then getBit w lhs j && getBit w rhs j else false :=
  getBit_binop hw _ hlen j

theorem getBit_bitOr {N w : Nat} (hw : 0 < w) {junk : List Nat}
    (hlen : junk.length = NWords N w) (lhs rhs : List Nat) (j : Nat) :
    getBit w (bitOr N w junk lhs rhs) j
      = if j < N then getBit w lhs j || getBit w rhs j else false :=
  getBit_binop hw _ hlen j

theorem getBit_bitXor {N w : Nat} (hw : 0 < w) {junk : List Nat}
    (hlen : junk.length = NWords N w) (lhs rhs : List Nat) (j : Nat) :
    getBit w (bitXor N w junk lhs rhs) j
      = if j < N then xor (getBit w lhs j) (getBit w rhs j) else false :=
  getBit_binop hw _ hlen j

theorem Wf_binop {N w : Nat} (hw : 0 < w) (f : Nat → Bool) {junk : List Nat}
    (hok : WordsOk N w junk) :
    Wf N w (maskLast N w (fillRange w 0 N f junk)) := by
  apply Wf_maskLast_of hw
  · rw [length_fillRange]; exact hok.1
  · exact words_lt_fillRange hw _ _ _ hok.2

-- characterization of the shift operators

theorem getBit_shl {N w : Nat} (hw : 0 < w) {junk : List Nat}
    (hlen : junk.length = NWords N w) (d : List Nat) (s j : Nat) :
    getBit w (shl N w junk d s) j
      = if j < N then (if s ≤ j then getBit w d (j - s) else false) else false := by
  have hNm := le_NWords_mul N w hw
  have hlen1 : (fillRange w 0 (min s N) (fun _ => false) junk).length = NWords N w := by
    rw [length_fillRange]; exact hlen
  have hlen2 : (fillRange w s (N - s) (fun i => getBit w d i)
      (fillRange w 0 (min s N) (fun _ => false) junk)).length = NWords N w := by
    rw [length_fillRange]; exact hlen1
  unfold shl
  by_cases hj : j < N
  · rw [if_pos hj, getBit_maskLast_lt hw hlen2 hj,
      getBit_fillRange hw _ _ _ _ _ (by intro i hi; rw [hlen1]; omega),
      getBit_fillRange hw _ _ _ _ _ (by intro i hi; rw [hlen]; omega)]
    by_cases hs : s ≤ j
    · rw [if_pos (by omega), if_pos hs]
    · rw [if_neg (by omega), if_pos (by omega), if_neg hs]
  · rw [if_neg hj, getBit_maskLast_ge hw hlen2 (by omega)]

theorem getBit_shr {N w : Nat} (hw : 0 < w) {junk : List Nat}
    (hlen : junk.length = NWords N w) (d : List Nat) (s j : Nat) :
    getBit w (shr N w junk d s) j
      = if j < N then (if j + s < N then getBit w d (j + s) else false) else false := by
  have hNm := le_NWords_mul N w hw
  have hlen1 : (fillRange w (N - s) (N - (N - s)) (fun _ => false) junk).length
      = NWords N w := by
    rw [length_fillRange]; exact hlen
  have hlen2 : (fillRange w 0 (N - s) (fun i => getBit w d (i + s))
      (fillRange w (N - s) (N - (N - s)) (fun _ => false) junk)).length = NWords N w := by
    rw [length_fillRange]; exact hlen1
  unfold shr
  by_cases hj : j < N
  · rw [if_pos hj, getBit_maskLast_lt hw hlen2 hj,
      getBit_fillRange hw _ _ _ _ _ (by intro i hi; rw [hlen1]; omega),
      getBit_fillRange hw _ _ _ _ _ (by intro i hi; rw [hlen]; omega)]
    by_cases hs : j + s < N
    · rw [if_pos (by omega), if_pos hs]
      simp
    · rw [if_neg (by omega), if_pos (by omega), if_neg hs]
  · rw [if_neg hj, getBit_maskLast_ge hw hlen2 (by omega)]

theorem Wf_shl {N w : Nat} (hw : 0 < w) {junk : List Nat} (hok : WordsOk N w junk)
    (d : List Nat) (s : Nat) : Wf N w (shl N w junk d s) := by
  apply Wf_maskLast_of hw
  · rw [length_fillRange, length_fillRange]; exact hok.1
  · exact words_lt_fillRange hw _ _ _ (words_lt_fillRange hw _ _ _ hok.2)

theorem Wf_shr {N w : Nat} (hw : 0 < w) {junk : List Nat} (hok : WordsOk N w junk)
    (d : List Nat) (s : Nat) : Wf N w (shr N w junk d s) := by
  apply Wf_maskLast_of hw
  · rw [length_fillRange, length_fillRange]; exact hok.1
  · exact words_lt_fillRange hw _ _ _ (words_lt_fillRange hw _ _ _ hok.2)

-- whole-word store loops (bulk set() and flip())

theorem getD_lt_of_words {w : Nat} {r : List Nat} (h : ∀ x ∈ r, x < 2 ^ w) (k : Nat) :
    r.getD k 0 < 2 ^ w := by
  by_cases hk : k < r.length
  · apply h
    rw [List.getD_eq_getElem?_getD, List.getElem?_eq_getElem hk]
    exact List.getElem_mem hk
  · rw [List.getD_eq_getElem?_getD, List.getElem?_eq_none (by omega)]
    exact Nat.pos_pow_of_pos w (by norm_num)

theorem length_foldl_set (g : List Nat → Nat → Nat) (m : Nat) (d : List Nat) :
    ((List.range m).foldl (fun r k => r.set k (g r k)) d).length = d.length := by
  induction m with
  | zero => rfl
  | succ m ih =>
    rw [List.range_succ, List.foldl_append]
    simpa using ih

theorem words_lt_foldl_set {w : Nat} (g : List Nat → Nat → Nat) (m : Nat) {d : List Nat}
    (hd : ∀ x ∈ d, x < 2 ^ w) (hg : ∀ r k, (∀ x ∈ r, x < 2 ^ w) → g r k < 2 ^ w) :
    ∀ x ∈ (List.range m).foldl (fun r k => r.set k (g r k)) d, x < 2 ^ w := by
  induction m with
  | zero => exact hd
  | succ m ih =>
    rw [List.range_succ, List.foldl_append]
    intro x hx
    rcases List.mem_or_eq_of_mem_set hx with hmem | hval
    · exact ih x hmem
    · subst hval
      exact hg _ _ ih

theorem getD_foldl_set_const (v m : Nat) (d : List Nat) (k : Nat) :
    ((List.range m).foldl (fun r j => r.set j v) d).getD k 0
      = if k < m ∧ k < d.length then v else d.getD k 0 := by
  induction m with
  | zero =>
    rw [if_neg (by omega)]
    rfl
  | succ m ih =>
    rw [List.range_succ, List.foldl_append]
    have hplen : ((List.range m).foldl (fun r j => r.set j v) d).length = d.length :=
      length_foldl_set (fun _ _ => v) m d
    by_cases hk : k = m
    · subst hk
      by_cases hlen : k < d.length
      · rw [List.foldl_cons, List.foldl_nil, getD_set_self (by omega), if_pos (by omega)]
      · rw [List.foldl_cons, List.foldl_nil, List.set_eq_of_length_le (by omega), ih,
          if_neg (by omega), if_neg (by omega)]
    · rw [List.foldl_cons, List.foldl_nil, getD_set_ne (fun h => hk h.symm), ih]
      by_cases hin : k < m ∧ k < d.length
      · rw [if_pos hin, if_pos (by omega)]
      · rw [if_neg hin, if_neg (by omega)]

theorem getD_foldl_set_map (F : Nat → Nat) (m : Nat) (d : List Nat) (k : Nat) :
    ((List.range m).foldl (fun r j => r.set j (F (r.getD j 0))) d).getD k 0
      = if k < m ∧ k < d.length then F (d.getD k 0) else d.getD k 0 := by
  induction m generalizing k with
  | zero =>
    rw [if_neg (by omega)]
    rfl
  | succ m ih =>
    rw [List.range_succ, List.foldl_append]
    have hplen : ((List.range m).foldl (fun r j => r.set j (F (r.getD j 0))) d).length
        = d.length := length_foldl_set (fun r j => F (r.getD j 0)) m d
    have hprev : ((List.range m).foldl (fun r j => r.set j (F (r.getD j 0))) d).getD m 0
        = d.getD m 0 := by
      rw [ih m, if_neg (by omega)]
    by_cases hk : k = m
    · subst hk
      by_cases hlen : k < d.length
      · rw [List.foldl_cons, List.foldl_nil, getD_set_self (by omega), hprev,
          if_pos (by omega)]
      · rw [List.foldl_cons, List.foldl_nil, List.set_eq_of_length_le (by omega), ih,
          if_neg (by omega), if_neg (by omega)]
    · rw [List.foldl_cons, List.foldl_nil, getD_set_ne (fun h => hk h.symm), ih]
      by_cases hin : k < m ∧ k < d.length
      · rw [if_pos hin, if_pos (by omega)]
      · rw [if_neg hin, if_neg (by omega)]

theorem AllMask_lt (w : Nat) : AllMask w < 2 ^ w :=
  Nat.sub_lt (Nat.pos_pow_of_pos w (by norm_num)) (by norm_num)

theorem LastWordMask_lt (N w : Nat) (hw : 0 < w) : LastWordMask N w < 2 ^ w := by
  unfold LastWordMask NBitsRem
  calc 2 ^ (N % w) - 1 < 2 ^ (N % w) :=
    Nat.sub_lt (Nat.pos_pow_of_pos _ (by norm_num)) (by norm_num)
  _ ≤ 2 ^ w := Nat.pow_le_pow_right (by norm_num) (Nat.le_of_lt (Nat.mod_lt _ hw))

theorem lt_of_div_lt_div {N w j : Nat} (hw : 0 < w) (h : j / w < N / w) : j < N := by
  have h1 := Nat.div_add_mod j w
  have h2 := Nat.div_add_mod N w
  have h3 : j % w < w := Nat.mod_lt _ hw
  have h4 : w * (j / w + 1) ≤ w * (N / w) := Nat.mul_le_mul_left w h
  rw [Nat.mul_succ] at h4
  omega

theorem lt_iff_mod_lt {N w j : Nat} (hw : 0 < w) (hk : j / w = N / w) :
    j < N ↔ j % w < N % w := by
  have h1 := Nat.div_add_mod j w
  have h2 := Nat.div_add_mod N w
  rw [hk] at h1
  omega

theorem getBit_setAll {N w : Nat} (hw : 0 < w) {d : List Nat}
    (hlen : d.length = NWords N w) (j : Nat) :
    getBit w (setAll N w d) j = decide (j < N) := by
  have hsa : setAll N w d =
      (if LastWordMask N w ≠ 0 then
        ((List.range (NFullyUsedWords N w)).foldl (fun r k => r.set k (AllMask w)) d).set
          (NFullyUsedWords N w) (LastWordMask N w)
      else ((List.range (NFullyUsedWords N w)).foldl (fun r k => r.set k (AllMask w)) d)) :=
    rfl
  have hRlen : ((List.range (NFullyUsedWords N w)).foldl
      (fun r k => r.set k (AllMask w)) d).length = d.length :=
    length_foldl_set (fun _ _ => AllMask w) _ d
  rw [hsa]
  rcases eq_or_ne (N % w) 0 with hrem | hrem
  · rw [if_neg (not_not_intro ((LastWordMask_eq_zero_iff N w).2 hrem))]
    have hN : NWords N w * w = N := NWords_mul_of_rem_eq N w hrem
    have h5 : N / w * w = N := by
      have h6 := NWords_mul_of_rem_eq N w hrem
      rwa [NWords_of_rem_eq N w hrem] at h6
    by_cases hj : j < N
    · have hdiv : j / w < NFullyUsedWords N w := by
        apply (Nat.div_lt_iff_lt_mul hw).2
        unfold NFullyUsedWords
        rw [h5]
        exact hj
      unfold getBit
      rw [getD_foldl_set_const, if_pos ⟨hdiv, by
        rw [hlen, NWords_of_rem_eq N w hrem]; exact hdiv⟩]
      unfold AllMask
      rw [Nat.testBit_two_pow_sub_one]
      simp [Nat.mod_lt j hw, hj]
    · rw [getBit_out hw (by rw [hRlen, hlen, hN]; omega)]
      simp [hj]
  · rw [if_pos (fun h0 => hrem ((LastWordMask_eq_zero_iff N w).1 h0))]
    have hNW := NWords_of_rem_ne N w hrem
    by_cases hout : NWords N w * w ≤ j
    · rw [getBit_out hw (by rw [List.length_set, hRlen, hlen]; omega)]
      have hle := le_NWords_mul N w hw
      have hnj : ¬(j < N) := by omega
      simp [hnj]
    · push_neg at hout
      by_cases hk : j / w = N / w
      · have hk1 : j / w = NFullyUsedWords N w := hk
        rw [getBit_set_word_eq hk1 (by
          rw [hRlen, hlen, hNW]; exact Nat.lt_succ_self _)]
        unfold LastWordMask NBitsRem
        rw [Nat.testBit_two_pow_sub_one]
        simp only [decide_eq_decide]
        exact (lt_iff_mod_lt hw hk).symm
      · have hdivlt : j / w < N / w := by
          have h7 : j / w < NWords N w := (Nat.div_lt_iff_lt_mul hw).2 hout
          omega
        have hjN : j < N := lt_of_div_lt_div hw hdivlt
        have hk1 : j / w ≠ NFullyUsedWords N w := hk
        rw [getBit_set_word_ne hk1]
        unfold getBit
        rw [getD_foldl_set_const, if_pos ⟨hdivlt, by
          rw [hlen, hNW]; omega⟩]
        unfold AllMask
        rw [Nat.testBit_two_pow_sub_one]
        simp [Nat.mod_lt j hw, hjN]

theorem Wf_setAll {N w : Nat} (hw : 0 < w) {d : List Nat} (hok : WordsOk N w d) :
    Wf N w (setAll N w d) := by
  have hsa : setAll N w d =
      (if LastWordMask N w ≠ 0 then
        ((List.range (NFullyUsedWords N w)).foldl (fun r k => r.set k (AllMask w)) d).set
          (NFullyUsedWords N w) (LastWordMask N w)
      else ((List.range (NFullyUsedWords N w)).foldl (fun r k => r.set k (AllMask w)) d)) :=
    rfl
  have hwordsR : ∀ x ∈ (List.range (NFullyUsedWords N w)).foldl
      (fun r k => r.set k (AllMask w)) d, x < 2 ^ w :=
    words_lt_foldl_set (fun _ _ => AllMask w) _ hok.2 (fun _ _ _ => AllMask_lt w)
  refine ⟨⟨?_, ?_⟩, fun i hi1 hi2 => by rw [getBit_setAll hw hok.1 i]; simp; omega⟩
  · rw [hsa]
    split
    · rw [List.length_set, length_foldl_set (fun _ _ => AllMask w) _ d]
      exact hok.1
    · rw [length_foldl_set (fun _ _ => AllMask w) _ d]
      exact hok.1
  · rw [hsa]
    split
    · intro x hx
      rcases List.mem_or_eq_of_mem_set hx with hmem | hval
      · exact hwordsR x hmem
      · subst hval
        exact LastWordMask_lt N w hw
    · exact hwordsR

theorem getBit_flipAll {N w : Nat} (hw : 0 < w) {d : List Nat}
    (hlen : d.length = NWords N w) (j : Nat) :
    getBit w (flipAll N w d) j = if j < N then !(getBit w d j) else false := by
  have hfa : flipAll N w d =
      (if LastWordMask N w ≠ 0 then
        ((List.range (NFullyUsedWords N w)).foldl
            (fun r k => r.set k (AllMask w ^^^ r.getD k 0)) d).set (NFullyUsedWords N w)
          ((AllMask w ^^^ ((List.range (NFullyUsedWords N w)).foldl
              (fun r k => r.set k (AllMask w ^^^ r.getD k 0)) d).getD
              (NFullyUsedWords N w) 0) &&& LastWordMask N w)
      else ((List.range (NFullyUsedWords N w)).foldl
          (fun r k => r.set k (AllMask w ^^^ r.getD k 0)) d)) := rfl
  have hRlen : ((List.range (NFullyUsedWords N w)).foldl
      (fun r k => r.set k (AllMask w ^^^ r.getD k 0)) d).length = d.length :=
    length_foldl_set (fun r k => AllMask w ^^^ r.getD k 0) _ d
  have hRlast : ((List.range (NFullyUsedWords N w)).foldl
      (fun r k => r.set k (AllMask w ^^^ r.getD k 0)) d).getD (NFullyUsedWords N w) 0
      = d.getD (NFullyUsedWords N w) 0 := by
    rw [getD_foldl_set_map (fun x => AllMask w ^^^ x), if_neg (by omega)]
  rw [hfa]
  rcases eq_or_ne (N % w) 0 with hrem | hrem
  · rw [if_neg (not_not_intro ((LastWordMask_eq_zero_iff N w).2 hrem))]
    have hN : NWords N w * w = N := NWords_mul_of_rem_eq N w hrem
    have h5 : N / w * w = N := by
      have h6 := NWords_mul_of_rem_eq N w hrem
      rwa [NWords_of_rem_eq N w hrem] at h6
    by_cases hj : j < N
    · have hdiv : j / w < NFullyUsedWords N w := by
        apply (Nat.div_lt_iff_lt_mul hw).2
        unfold NFullyUsedWords
        rw [h5]
        exact hj
      unfold getBit
      rw [getD_foldl_set_map (fun x => AllMask w ^^^ x), if_pos ⟨hdiv, by
        rw [hlen, NWords_of_rem_eq N w hrem]; exact hdiv⟩, if_pos hj]
      rw [Nat.testBit_xor]
      unfold AllMask
      rw [Nat.testBit_two_pow_sub_one]
      simp [Nat.mod_lt j hw]
    · rw [getBit_out hw (by rw [hRlen, hlen, hN]; omega), if_neg hj]
  · rw [if_pos (fun h0 => hrem ((LastWordMask_eq_zero_iff N w).1 h0))]
    have hNW := NWords_of_rem_ne N w hrem
    by_cases hout : NWords N w * w ≤ j
    · have hle := le_NWords_mul N w hw
      rw [getBit_out hw (by rw [List.length_set, hRlen, hlen]; omega), if_neg (by omega)]
    · push_neg at hout
      by_cases hk : j / w = N / w
      · have hk1 : j / w = NFullyUsedWords N w := hk
        rw [getBit_set_word_eq hk1 (by
          rw [hRlen, hlen, hNW]; exact Nat.lt_succ_self _), hRlast]
        rw [Nat.testBit_and, Nat.testBit_xor]
        unfold LastWordMask NBitsRem AllMask
        rw [Nat.testBit_two_pow_sub_one, Nat.testBit_two_pow_sub_one]
        have hiff := lt_iff_mod_lt hw hk
        by_cases hj : j < N
        · rw [if_pos hj]
          unfold getBit
          rw [hk]
          simp only [Nat.mod_lt j hw, hiff.1 hj, decide_True, Bool.and_true,
            Bool.true_xor]
          rfl
        · rw [if_neg hj]
          have hnm : ¬(j % w < N % w) := fun hc => hj (hiff.2 hc)
          simp [hnm]
      · have hdivlt : j / w < N / w := by
          have h7 : j / w < NWords N w := (Nat.div_lt_iff_lt_mul hw).2 hout
          omega
        have hjN : j < N := lt_of_div_lt_div hw hdivlt
        have hk1 : j / w ≠ NFullyUsedWords N w := hk
        rw [getBit_set_word_ne hk1, if_pos hjN]
        unfold getBit
        rw [getD_foldl_set_map (fun x => AllMask w ^^^ x), if_pos ⟨hdivlt, by
          rw [hlen, hNW]; omega⟩]
        rw [Nat.testBit_xor]
        unfold AllMask
        rw [Nat.testBit_two_pow_sub_one]
        simp [Nat.mod_lt j hw]

theorem Wf_flipAll {N w : Nat} (hw : 0 < w) {d : List Nat} (hok : WordsOk N w d) :
    Wf N w (flipAll N w d) := by
  have hfa : flipAll N w d =
      (if LastWordMask N w ≠ 0 then
        ((List.range (NFullyUsedWords N w)).foldl
            (fun r k => r.set k (AllMask w ^^^ r.getD k 0)) d).set (NFullyUsedWords N w)
          ((AllMask w ^^^ ((List.range (NFullyUsedWords N w)).foldl
              (fun r k => r.set k (AllMask w ^^^ r.getD k 0)) d).getD
              (NFullyUsedWords N w) 0) &&& LastWordMask N w)
      else ((List.range (NFullyUsedWords N w)).foldl
          (fun r k => r.set k (AllMask w ^^^ r.getD k 0)) d)) := rfl
  have hwordsR : ∀ x ∈ (List.range (NFullyUsedWords N w)).foldl
      (fun r k => r.set k (AllMask w ^^^ r.getD k 0)) d, x < 2 ^ w :=
    words_lt_foldl_set (fun r k => AllMask w ^^^ r.getD k 0) _ hok.2
      (fun r k hr => Nat.xor_lt_two_pow (AllMask_lt w) (getD_lt_of_words hr k))
  refine ⟨⟨?_, ?_⟩, fun i hi1 hi2 => by
    rw [getBit_flipAll hw hok.1 i, if_neg (by omega)]⟩
  · rw [hfa]
    split
    · rw [List.length_set, length_foldl_set (fun r k => AllMask w ^^^ r.getD k 0) _ d]
      exact hok.1
    · rw [length_foldl_set (fun r k => AllMask w ^^^ r.getD k 0) _ d]
      exact hok.1
  · rw [hfa]
    split
    · intro x hx
      rcases List.mem_or_eq_of_mem_set hx with hmem | hval
      · exact hwordsR x hmem
      · subst hval
        exact Nat.and_lt_two_pow _ (LastWordMask_lt N w hw)
    · exact hwordsR

-- the integer-value constructor

theorem getBit_ofVal_aux {N w : Nat} (hw : 0 < w) (val : Nat) (m : Nat) (j : Nat) :
    getBit w ((List.range m).foldl
        (fun d b => if val.testBit b && decide (b < N) then bitSet w d b true else d)
        (mk0 N w)) j
      = (decide (j < m) && val.testBit j && decide (j < N)) := by
  induction m with
  | zero =>
    rw [List.range_zero, List.foldl_nil, getBit_mk0]
    simp
  | succ m ih =>
    rw [List.range_succ, List.foldl_append, List.foldl_cons, List.foldl_nil]
    have hlen : ((List.range m).foldl
        (fun d b => if val.testBit b && decide (b < N) then bitSet w d b true else d)
        (mk0 N w)).length = NWords N w := by
      clear ih
      induction m with
      | zero => exact length_mk0 N w
      | succ m ih2 =>
        rw [List.range_succ, List.foldl_append, List.foldl_cons, List.foldl_nil]
        split
        · rw [length_bitSet]
          exact ih2
        · exact ih2
    by_cases hc : val.testBit m && decide (m < N)
    · rw [if_pos hc]
      simp only [Bool.and_eq_true, decide_eq_true_eq] at hc
      have hmN : m < NWords N w * w := by
        have := le_NWords_mul N w hw
        omega
      rw [getBit_bitSet hw _ _ _ _ (by rw [hlen]; exact hmN)]
      by_cases hj : j = m
      · subst hj
        simp [hc.1, hc.2]
      · rw [if_neg hj, ih]
        by_cases hjm : j < m
        · simp [hjm, show j < m + 1 by omega]
        · simp [hjm, show ¬(j < m + 1) by omega]
    · rw [if_neg hc, ih]
      by_cases hj : j = m
      · subst hj
        simp only [Bool.and_eq_true, decide_eq_true_eq, not_and] at hc
        simp only [Nat.lt_irrefl, decide_False, Bool.false_and, Bool.false_eq]
        by_cases hb : val.testBit j
        · simp [show j < j + 1 by omega, hb, hc hb]
        · simp [hb]
      · by_cases hjm : j < m
        · simp [hjm, show j < m + 1 by omega]
        · simp [hjm, show ¬(j < m + 1) by omega]

theorem getBit_ofVal {N w : Nat} (hw : 0 < w) (val j : Nat) :
    getBit w (ofVal N w val) j
      = (decide (j < 64) && val.testBit j && decide (j < N)) :=
  getBit_ofVal_aux hw val 64 j

theorem Wf_ofVal {N w : Nat} (hw : 0 < w) (val : Nat) : Wf N w (ofVal N w val) := by
  refine ⟨⟨?_, ?_⟩, fun i hi1 hi2 => by
    rw [getBit_ofVal hw val i]
    simp only [Bool.and_eq_false_iff, decide_eq_false_iff_not]
    right
    omega⟩
  · unfold ofVal
    generalize (64 : Nat) = m
    induction m with
    | zero => exact length_mk0 N w
    | succ m ih =>
      rw [List.range_succ, List.foldl_append, List.foldl_cons, List.foldl_nil]
      split
      · rw [length_bitSet]
        exact ih
      · exact ih
  · unfold ofVal
    generalize (64 : Nat) = m
    induction m with
    | zero => exact words_lt_mk0 N w
    | succ m ih =>
      rw [List.range_succ, List.foldl_append, List.foldl_cons, List.foldl_nil]
      split
      · exact words_lt_bitSet hw ih
      · exact ih

-- the string constructor loop

theorem ctorFill_ne_out {N w : Nat} (zero one : Char) :
    ∀ (L : List Char) (j : Nat) (d : List Nat),
      ctorFill N w zero one L j d ≠ .error .OutOfRange := by
  intro L
  induction L with
  | nil =>
    intro j d h
    simp only [ctorFill] at h
    exact Except.noConfusion h
  | cons ch rest ih =>
    intro j d h
    simp only [ctorFill] at h
    by_cases hj : j < N
    · rw [if_pos hj] at h
      by_cases hone : ch = one
      · rw [if_pos hone] at h
        exact ih _ _ h
      · rw [if_neg hone] at h
        by_cases hzero : ch = zero
        · rw [if_pos hzero] at h
          exact ih _ _ h
        · rw [if_neg hzero] at h
          simp at h
    · rw [if_neg hj] at h
      simp at h

theorem ctorFill_spec {N w : Nat} (hw : 0 < w) (zero one : Char) :
    ∀ (L : List Char) (j0 : Nat) (d D : List Nat),
      d.length = NWords N w →
      (∀ x ∈ d, x < 2 ^ w) →
      (∀ j, j0 ≤ j → getBit w d j = false) →
      ctorFill N w zero one L j0 d = .ok D →
      D.length = NWords N w ∧ (∀ x ∈ D, x < 2 ^ w) ∧
      (∀ j, j < j0 → getBit w D j = getBit w d j) ∧
      (∀ k, k < min L.length (N - j0) → getBit w D (j0 + k) = (L.getD k ' ' == one)) ∧
      (∀ j, j0 + min L.length (N - j0) ≤ j → getBit w D j = false) := by
  intro L
  induction L with
  | nil =>
    intro j0 d D hlen hwords htail hok
    simp only [ctorFill] at hok
    injection hok with hD
    subst hD
    refine ⟨hlen, hwords, fun j _ => rfl, fun k hk => absurd hk (by simp), fun j hj => ?_⟩
    exact htail j (by omega)
  | cons ch rest ih =>
    intro j0 d D hlen hwords htail hok
    simp only [ctorFill] at hok
    by_cases hj0 : j0 < N
    · rw [if_pos hj0] at hok
      have hj0w : j0 < d.length * w := by
        have := le_NWords_mul N w hw
        rw [hlen]
        omega
      have hcsucc : min (ch :: rest).length (N - j0)
          = min rest.length (N - (j0 + 1)) + 1 := by
        simp only [List.length_cons]
        omega
      by_cases hone : ch = one
      · rw [if_pos hone] at hok
        obtain ⟨ihl, ihw, ihlt, ihmid, ihtail⟩ := ih (j0 + 1) (bitSet w d j0 true) D
          (by rw [length_bitSet]; exact hlen)
          (words_lt_bitSet hw hwords)
          (fun j hj => by
            rw [getBit_bitSet hw _ _ _ _ hj0w, if_neg (by omega)]
            exact htail j (by omega))
          hok
        refine ⟨ihl, ihw, fun j hj => ?_, fun k hk => ?_, fun j hj => ?_⟩
        · rw [ihlt j (by omega), getBit_bitSet hw _ _ _ _ hj0w, if_neg (by omega)]
        · match k with
          | 0 =>
            rw [Nat.add_zero, ihlt j0 (by omega),
              getBit_bitSet hw _ _ _ _ hj0w, if_pos rfl]
            simp [hone]
          | k' + 1 =>
            rw [hcsucc] at hk
            rw [show j0 + (k' + 1) = (j0 + 1) + k' by omega, ihmid k' (by omega)]
            simp
        · rw [hcsucc] at hj
          exact ihtail j (by omega)
      · rw [if_neg hone] at hok
        by_cases hzero : ch = zero
        · rw [if_pos hzero] at hok
          obtain ⟨ihl, ihw, ihlt, ihmid, ihtail⟩ := ih (j0 + 1) d D hlen hwords
            (fun j hj => htail j (by omega)) hok
          refine ⟨ihl, ihw, fun j hj => ihlt j (by omega), fun k hk => ?_, fun j hj => ?_⟩
          · match k with
            | 0 =>
              rw [Nat.add_zero, ihlt j0 (by omega), htail j0 (by omega)]
              simp only [List.getD_cons_zero]
              have : (ch == one) = false := by
                rw [beq_eq_false_iff_ne]
                exact hone
              rw [this]
            | k' + 1 =>
              rw [hcsucc] at hk
              rw [show j0 + (k' + 1) = (j0 + 1) + k' by omega, ihmid k' (by omega)]
              simp
          · rw [hcsucc] at hj
            exact ihtail j (by omega)
        · rw [if_neg hzero] at hok
          simp at hok
    · rw [if_neg hj0] at hok
      injection hok with hD
      subst hD
      refine ⟨hlen, hwords, fun j _ => rfl, fun k hk => absurd hk (by omega),
        fun j hj => htail j (by omega)⟩

theorem ctorStr_error_iff (N w : Nat) (str : List Char) (pos n : Nat) (zero one : Char) :
    ctorStr N w str pos n zero one = .error .OutOfRange ↔ str.length ≤ pos ∧ N ≠ 0 := by
  unfold ctorStr
  split
  case isTrue h => simp [h]
  case isFalse h =>
    constructor
    · intro hc
      exact absurd hc (ctorFill_ne_out zero one _ _ _)
    · intro hc
      exact absurd hc h

theorem ctorStr_ok_spec {N w : Nat} (hw : 0 < w) (str : List Char) (pos n : Nat)
    (zero one : Char) (D : List Nat) (hok : ctorStr N w str pos n zero one = .ok D) :
    Wf N w D ∧
    (∀ k, k < min (((str.take n).drop pos).length) N →
      getBit w D k = (((str.take n).drop pos).getD k ' ' == one)) ∧
    (∀ j, min (((str.take n).drop pos).length) N ≤ j → getBit w D j = false) := by
  unfold ctorStr at hok
  rw [if_neg (by
    intro hc
    rw [if_pos hc] at hok
    simp at hok)] at hok
  obtain ⟨hl, hwords, _, hmid, htail⟩ := ctorFill_spec hw zero one _ 0 (mk0 N w) D
    (length_mk0 N w) (words_lt_mk0 N w) (fun j _ => getBit_mk0 N w j) hok
  refine ⟨⟨⟨hl, hwords⟩, fun i _ hi2 => ?_⟩, fun k hk => ?_, fun j hj => ?_⟩
  · apply htail
    have : min (((str.take n).drop pos).length) (N - 0) ≤ N := by omega
    omega
  · have := hmid k (by omega)
    rwa [Nat.zero_add] at this
  · apply htail
    omega

-- the stream extraction loop

/-- Length of the longest leading run of characters that match the stream
operator's `one`/`zero` alphabet (`'1'`/`'0'`): exactly the characters the
C++ loop can consume before hitting end-of-input or a mismatch. -/
def matchLen (inp : List Char) : Nat :=
  (inp.takeWhile (fun ch => ch == '1' || ch == '0')).length

theorem readLoop_spec {N w : Nat} (hw : 0 < w) :
    ∀ (fuel i : Nat) (d : List Nat) (inp : List Char),
      i + fuel = N →
      d.length = NWords N w →
      (∀ x ∈ d, x < 2 ^ w) →
      (∀ j, i ≤ j → getBit w d j = false) →
      (readLoop N w '1' '0' fuel i d inp).2.1 = inp.drop (min fuel (matchLen inp)) ∧
      (readLoop N w '1' '0' fuel i d inp).2.2
        = decide (min fuel (matchLen inp) < fuel ∧ i + min fuel (matchLen inp) = 0) ∧
      (readLoop N w '1' '0' fuel i d inp).1.length = NWords N w ∧
      (∀ x ∈ (readLoop N w '1' '0' fuel i d inp).1, x < 2 ^ w) ∧
      (∀ j, j < i →
        getBit w (readLoop N w '1' '0' fuel i d inp).1 j = getBit w d j) ∧
      (∀ k, k < min fuel (matchLen inp) →
        getBit w (readLoop N w '1' '0' fuel i d inp).1 (i + k) = (inp.getD k ' ' == '1')) ∧
      (∀ j, i + min fuel (matchLen inp) ≤ j →
        getBit w (readLoop N w '1' '0' fuel i d inp).1 j = false) := by
  intro fuel
  induction fuel with
  | zero =>
    intro i d inp hiN hlen hwords htail
    have hm : min 0 (matchLen inp) = 0 := by omega
    refine ⟨?_, ?_, hlen, hwords, fun j _ => rfl, ?_, ?_⟩
    · rw [hm]
      rfl
    · rw [hm]
      show false = decide (0 < 0 ∧ i + 0 = 0)
      simp
    · intro k hk
      rw [hm] at hk
      exact absurd hk (by omega)
    · intro j hj
      rw [hm] at hj
      exact htail j (by omega)
  | succ fuel ih =>
    intro i d inp hiN hlen hwords htail
    match inp with
    | [] =>
      have hm : min (fuel + 1) (matchLen ([] : List Char)) = 0 := by
        unfold matchLen
        simp
      refine ⟨?_, ?_, hlen, hwords, fun j _ => rfl, ?_, ?_⟩
      · rw [hm]
        rfl
      · rw [hm]
        show (i == 0) = decide (0 < fuel + 1 ∧ i + 0 = 0)
        cases i <;> simp
      · intro k hk
        rw [hm] at hk
        exact absurd hk (by omega)
      · intro j hj
        rw [hm] at hj
        exact htail j (by omega)
    | ch :: rest =>
      simp only [readLoop]
      by_cases hv : ch ≠ '1' ∧ ch ≠ '0'
      · rw [if_pos hv]
        have hp : (ch == '1' || ch == '0') = false := by
          obtain ⟨h1, h0⟩ := hv
          simp [h1, h0]
        have ht : matchLen (ch :: rest) = 0 := by
          unfold matchLen
          simp [List.takeWhile_cons, hp]
        have hm : min (fuel + 1) (matchLen (ch :: rest)) = 0 := by
          rw [ht]
          omega
        refine ⟨?_, ?_, hlen, hwords, fun j _ => rfl, ?_, ?_⟩
        · rw [hm]
          rfl
        · rw [hm]
          show (i == 0) = decide (0 < fuel + 1 ∧ i + 0 = 0)
          cases i <;> simp
        · intro k hk
          rw [hm] at hk
          exact absurd hk (by omega)
        · intro j hj
          rw [hm] at hj
          exact htail j (by omega)
      · rw [if_neg hv]
        have hror : ch = '1' ∨ ch = '0' := by
          by_cases h1 : ch = '1'
          · exact Or.inl h1
          · right
            by_cases h0 : ch = '0'
            · exact h0
            · exact absurd ⟨h1, h0⟩ hv
        have hp : (ch == '1' || ch == '0') = true := by
          rcases hror with h | h <;> simp [h]
        have ht : matchLen (ch :: rest) = matchLen rest + 1 := by
          unfold matchLen
          simp [List.takeWhile_cons, hp]
        rw [ht]
        have hmin : min (fuel + 1) (matchLen rest + 1) = min fuel (matchLen rest) + 1 := by
          omega
        rw [hmin]
        have hiw : i < d.length * w := by
          have := le_NWords_mul N w hw
          rw [hlen]
          omega
        obtain ⟨ih1, ih2, ih3, ih4, ih5, ih6, ih7⟩ :=
          ih (i + 1) (bitSet w d i (ch == '1')) rest
            (by omega)
            (by rw [length_bitSet]; exact hlen)
            (words_lt_bitSet hw hwords)
            (fun j hj => by
              rw [getBit_bitSet hw _ _ _ _ hiw, if_neg (by omega)]
              exact htail j (by omega))
        refine ⟨?_, ?_, ih3, ih4, fun j hj => ?_, fun k hk => ?_, fun j hj => ?_⟩
        · rw [ih1]
          rfl
        · rw [ih2]
          simp only [decide_eq_decide]
          omega
        · rw [ih5 j (by omega), getBit_bitSet hw _ _ _ _ hiw, if_neg (by omega)]
        · cases k with
          | zero =>
            have hbit := ih5 i (by omega)
            rw [getBit_bitSet hw _ _ _ _ hiw, if_pos rfl] at hbit
            simpa using hbit
          | succ k2 =>
            have hbit := ih6 k2 (by omega)
            simpa [show i + (k2 + 1) = i + 1 + k2 from by omega] using hbit
        · exact ih7 j (by omega)

theorem readOp_spec {N w : Nat} (hw : 0 < w) (inp : List Char) :
    (readOp N w inp).2.1 = inp.drop (min N (matchLen inp)) ∧
    (readOp N w inp).2.2 = decide (0 < N ∧ min N (matchLen inp) = 0) ∧
    Wf N w (readOp N w inp).1 ∧
    (∀ k, k < min N (matchLen inp) →
      getBit w (readOp N w inp).1 k = (inp.getD k ' ' == '1')) ∧
    (∀ j, min N (matchLen inp) ≤ j → getBit w (readOp N w inp).1 j = false) := by
  obtain ⟨h1, h2, h3, h4, h5, h6, h7⟩ := readLoop_spec hw N 0 (mk0 N w) inp
    (by omega) (length_mk0 N w) (words_lt_mk0 N w) (fun j _ => getBit_mk0 N w j)
  have hNle := le_NWords_mul N w hw
  unfold readOp
  refine ⟨h1, ?_, ⟨⟨h3, h4⟩, fun i _ hi2 => h7 i (by omega)⟩, fun k hk => ?_, fun j hj => ?_⟩
  · rw [h2]
    simp only [decide_eq_decide]
    omega
  · have := h6 k hk
    rwa [Nat.zero_add] at this
  · exact h7 j (by omega)

-- equality

theorem getBit_word_offset {w : Nat} (hw : 0 < w) (d : List Nat) (k p : Nat) (hp : p < w) :
    getBit w d (p + k * w) = (d.getD k 0).testBit p := by
  unfold getBit
  rw [Nat.add_mul_div_right _ _ hw, Nat.div_eq_of_lt hp, Nat.zero_add,
    Nat.add_mul_mod_self_right, Nat.mod_eq_of_lt hp]

theorem eqOp_iff {N w : Nat} (hw : 0 < w) {d1 d2 : List Nat}
    (h1 : WordsOk N w d1) (h2 : WordsOk N w d2) :
    eqOp N w d1 d2 = true ↔ ∀ i, i < N → getBit w d1 i = getBit w d2 i := by
  unfold eqOp
  rw [Bool.and_eq_true, List.all_eq_true]
  constructor
  · rintro ⟨hfull, hlast⟩ i hi
    have hmod : i % w < w := Nat.mod_lt _ hw
    by_cases hk : i / w < NFullyUsedWords N w
    · have hb := hfull (i / w) (List.mem_range.2 hk)
      have hw_eq : d1.getD (i / w) 0 = d2.getD (i / w) 0 := by simpa using hb
      unfold getBit
      rw [hw_eq]
    · have hk2 : i / w = N / w := by
        have hle : i / w ≤ N / w := Nat.div_le_div_right (Nat.le_of_lt hi)
        unfold NFullyUsedWords at hk
        omega
      have hrem : N % w ≠ 0 := by
        intro h0
        have h5 : N / w * w = N := by
          have h6 := NWords_mul_of_rem_eq N w h0
          rwa [NWords_of_rem_eq N w h0] at h6
        have h7 : i / w < N / w := (Nat.div_lt_iff_lt_mul hw).2 (by rw [h5]; exact hi)
        unfold NFullyUsedWords at hk
        omega
      rw [if_pos (fun h0 => hrem ((LastWordMask_eq_zero_iff N w).1 h0))] at hlast
      have hmasked : d1.getD (NFullyUsedWords N w) 0 &&& LastWordMask N w
          = d2.getD (NFullyUsedWords N w) 0 &&& LastWordMask N w := by simpa using hlast
      have hmlt : i % w < N % w := (lt_iff_mod_lt hw hk2).1 hi
      have hbit := congrArg (fun x => x.testBit (i % w)) hmasked
      simp only [Nat.testBit_and] at hbit
      unfold LastWordMask NBitsRem at hbit
      rw [Nat.testBit_two_pow_sub_one] at hbit
      simp only [hmlt, decide_True, Bool.and_true] at hbit
      unfold getBit
      rw [hk2]
      exact hbit
  · intro hbits
    refine ⟨?_, ?_⟩
    · intro k hkmem
      rw [List.mem_range] at hkmem
      have heq : d1.getD k 0 = d2.getD k 0 := by
        apply Nat.eq_of_testBit_eq
        intro p
        by_cases hp : p < w
        · have hidx : p + k * w < N := by
            have hle1 : (k + 1) * w ≤ NFullyUsedWords N w * w :=
              Nat.mul_le_mul_right w (by omega)
            have hle2 : NFullyUsedWords N w * w ≤ N := Nat.div_mul_le_self N w
            rw [Nat.succ_mul] at hle1
            omega
          have hb := hbits (p + k * w) hidx
          rw [getBit_word_offset hw d1 k p hp, getBit_word_offset hw d2 k p hp] at hb
          exact hb
        · have hb1 : d1.getD k 0 < 2 ^ p :=
            Nat.lt_of_lt_of_le (getD_lt_of_words h1.2 k)
              (Nat.pow_le_pow_right (by norm_num) (by omega))
          have hb2 : d2.getD k 0 < 2 ^ p :=
            Nat.lt_of_lt_of_le (getD_lt_of_words h2.2 k)
              (Nat.pow_le_pow_right (by norm_num) (by omega))
          rw [Nat.testBit_lt_two_pow hb1, Nat.testBit_lt_two_pow hb2]
      simp only [beq_iff_eq]
      exact heq
    · split
      case isTrue hmask =>
        have hrem : N % w ≠ 0 := fun h0 => hmask ((LastWordMask_eq_zero_iff N w).2 h0)
        have heq : d1.getD (NFullyUsedWords N w) 0 &&& LastWordMask N w
            = d2.getD (NFullyUsedWords N w) 0 &&& LastWordMask N w := by
          apply Nat.eq_of_testBit_eq
          intro p
          rw [Nat.testBit_and, Nat.testBit_and]
          unfold LastWordMask NBitsRem
          rw [Nat.testBit_two_pow_sub_one]
          by_cases hp : p < N % w
          · have hpw : p < w := Nat.lt_of_lt_of_le hp (Nat.le_of_lt (Nat.mod_lt _ hw))
            have hidx : p + (N / w) * w < N := by
              have hdm := Nat.div_add_mod N w
              have hcomm : N / w * w = w * (N / w) := Nat.mul_comm _ _
              omega
            have hb := hbits (p + (N / w) * w) hidx
            rw [getBit_word_offset hw d1 (N / w) p hpw,
              getBit_word_offset hw d2 (N / w) p hpw] at hb
            simp only [hp, decide_True, Bool.and_true]
            exact hb
          · simp [hp]
        simp only [beq_iff_eq, if_pos hmask]
        exact heq
      case isFalse hmask => rfl

theorem eq_data_of_eqOp {N w : Nat} (hw : 0 < w) {d1 d2 : List Nat}
    (hWf1 : Wf N w d1) (hWf2 : Wf N w d2) (heq : eqOp N w d1 d2 = true) : d1 = d2 := by
  have hbits := (eqOp_iff hw hWf1.1 hWf2.1).1 heq
  apply List.ext_getElem (hWf1.1.1.trans hWf2.1.1.symm)
  intro k hk1 hk2
  have hgd : d1.getD k 0 = d2.getD k 0 := by
    apply Nat.eq_of_testBit_eq
    intro p
    by_cases hp : p < w
    · by_cases hidx : p + k * w < N
      · have hb := hbits _ hidx
        rw [getBit_word_offset hw d1 k p hp, getBit_word_offset hw d2 k p hp] at hb
        exact hb
      · have hlt : p + k * w < NWords N w * w := by
          have hkN : k < NWords N w := by rw [← hWf1.1.1]; exact hk1
          have hmul : (k + 1) * w ≤ NWords N w * w := Nat.mul_le_mul_right w (by omega)
          rw [Nat.succ_mul] at hmul
          omega
        have hu1 := hWf1.2 (p + k * w) hlt (by omega)
        have hu2 := hWf2.2 (p + k * w) hlt (by omega)
        rw [getBit_word_offset hw d1 k p hp] at hu1
        rw [getBit_word_offset hw d2 k p hp] at hu2
        rw [hu1, hu2]
    · have hb1 : d1.getD k 0 < 2 ^ p :=
        Nat.lt_of_lt_of_le (getD_lt_of_words hWf1.1.2 k)
          (Nat.pow_le_pow_right (by norm_num) (by omega))
      have hb2 : d2.getD k 0 < 2 ^ p :=
        Nat.lt_of_lt_of_le (getD_lt_of_words hWf2.1.2 k)
          (Nat.pow_le_pow_right (by norm_num) (by omega))
      rw [Nat.testBit_lt_two_pow hb1, Nat.testBit_lt_two_pow hb2]
  have e1 : d1.getD k 0 = d1[k] := by
    rw [List.getD_eq_getElem?_getD, List.getElem?_eq_getElem hk1]
    rfl
  have e2 : d2.getD k 0 = d2[k] := by
    rw [List.getD_eq_getElem?_getD, List.getElem?_eq_getElem hk2]
    rfl
  rw [← e1, ← e2, hgd]

-- to_string

theorem getD_set_self_char {d : List Char} {k : Nat} {v a : Char} (h : k < d.length) :
    (d.set k v).getD k a = v := by
  simp [List.getD_eq_getElem?_getD, List.getElem?_set_self h]

theorem getD_set_ne_char {d : List Char} {k k2 : Nat} {v a : Char} (h : k ≠ k2) :
    (d.set k v).getD k2 a = d.getD k2 a := by
  simp [List.getD_eq_getElem?_getD, List.getElem?_set_ne h]

theorem to_string_fold_length {N w : Nat} (zero one : Char) (d : List Nat) (m : Nat) :
    ((List.range m).foldl (fun s bit => if getBit w d bit then s.set bit one else s)
      (List.replicate N zero)).length = N := by
  induction m with
  | zero => simp
  | succ m ih =>
    rw [List.range_succ, List.foldl_append, List.foldl_cons, List.foldl_nil]
    split
    · rw [List.length_set]
      exact ih
    · exact ih

theorem to_string_length (N w : Nat) (zero one : Char) (d : List Nat) :
    (to_string N w zero one d).length = N :=
  to_string_fold_length zero one d N

theorem to_string_aux {N w : Nat} (zero one : Char) (d : List Nat) :
    ∀ m, m ≤ N → ∀ i, i < N →
      ((List.range m).foldl (fun s bit => if getBit w d bit then s.set bit one else s)
        (List.replicate N zero)).getD i ' '
        = if i < m ∧ getBit w d i then one else zero := by
  intro m
  induction m with
  | zero =>
    intro _ i hi
    rw [if_neg (by omega), List.range_zero, List.foldl_nil, List.getD_eq_getElem?_getD,
      List.getElem?_replicate, if_pos hi]
    rfl
  | succ m ih =>
    intro hm i hi
    rw [List.range_succ, List.foldl_append, List.foldl_cons, List.foldl_nil]
    have hplen := to_string_fold_length (N := N) (w := w) zero one d m
    by_cases hbit : getBit w d m
    · rw [if_pos hbit]
      by_cases hik : i = m
      · subst hik
        rw [getD_set_self_char (by rw [hplen]; omega), if_pos ⟨by omega, hbit⟩]
      · rw [getD_set_ne_char (fun h => hik h.symm), ih (by omega) i hi]
        by_cases hin : i < m ∧ getBit w d i
        · rw [if_pos hin, if_pos ⟨by omega, hin.2⟩]
        · rw [if_neg hin, if_neg (by
            rintro ⟨hx1, hx2⟩
            exact hin ⟨by omega, hx2⟩)]
    · rw [if_neg hbit, ih (by omega) i hi]
      by_cases hin : i < m ∧ getBit w d i
      · rw [if_pos hin, if_pos ⟨by omega, hin.2⟩]
      · rw [if_neg hin, if_neg (by
          rintro ⟨hx1, hx2⟩
          apply hin
          refine ⟨?_, hx2⟩
          rcases Nat.lt_succ_iff_lt_or_eq.mp hx1 with hx | hx
          · exact hx
          · rw [hx] at hx2
            exact absurd hx2 hbit)]

theorem to_string_getD {N w : Nat} (zero one : Char) (d : List Nat) (i : Nat) (hi : i < N) :
    (to_string N w zero one d).getD i ' ' = if getBit w d i then one else zero := by
  unfold to_string
  rw [to_string_aux zero one d N (Nat.le_refl N) i hi]
  by_cases hbit : getBit w d i
  · rw [if_pos ⟨hi, hbit⟩, if_pos hbit]
  · rw [if_neg (fun hx => hbit hx.2), if_neg hbit]

-- integer extraction

theorem testBit_add_two_pow_of_lt {a p : Nat} (h : a < 2 ^ p) (j : Nat) :
    (a + 2 ^ p).testBit j = (a.testBit j || decide (j = p)) := by
  rcases Nat.lt_trichotomy j p with hj | hj | hj
  · have hne : ¬(j = p) := by omega
    rw [Nat.testBit_to_div_mod, Nat.testBit_to_div_mod]
    have hd : 2 ^ p = 2 ^ (p - j - 1) * 2 * 2 ^ j := by
      rw [← Nat.pow_succ, ← Nat.pow_add]
      congr 1
      omega
    rw [hd, Nat.add_mul_div_right _ _ (Nat.pos_pow_of_pos j (by norm_num)),
      Nat.add_mul_mod_self_right]
    simp [hne]
  · subst hj
    rw [Nat.testBit_to_div_mod,
      Nat.add_div_right _ (Nat.pos_pow_of_pos j (by norm_num)),
      Nat.div_eq_of_lt h]
    simp [Nat.testBit_lt_two_pow h]
  · have hle : 2 ^ (p + 1) ≤ 2 ^ j := Nat.pow_le_pow_right (by norm_num) (by omega)
    have h1 : a + 2 ^ p < 2 ^ j := by
      have h2 : a + 2 ^ p < 2 ^ (p + 1) := by
        rw [Nat.pow_succ]
        omega
      omega
    have h3 : a < 2 ^ j := by omega
    rw [Nat.testBit_lt_two_pow h1, Nat.testBit_lt_two_pow h3]
    simp
    omega

theorem bitsSum_lt (n : Nat) (f : Nat → Bool) :
    (Finset.range n).sum (fun i => if f i then 2 ^ i else 0) < 2 ^ n := by
  induction n with
  | zero => simp
  | succ n ih =>
    rw [Finset.sum_range_succ, Nat.pow_succ]
    have hterm : (if f n then 2 ^ n else 0) ≤ 2 ^ n := by split <;> omega
    omega

theorem bitsSum_testBit (n : Nat) (f : Nat → Bool) (j : Nat) :
    ((Finset.range n).sum (fun i => if f i then 2 ^ i else 0)).testBit j
      = (decide (j < n) && f j) := by
  induction n with
  | zero => simp
  | succ n ih =>
    rw [Finset.sum_range_succ]
    by_cases hf : f n
    · rw [if_pos hf, testBit_add_two_pow_of_lt (bitsSum_lt n f) j, ih]
      by_cases hj : j = n
      · subst hj
        simp [hf]
      · simp only [hj, decide_False, Bool.or_false]
        by_cases hjn : j < n
        · simp [hjn, show j < n + 1 by omega]
        · simp [hjn, show ¬(j < n + 1) by omega]
    · rw [if_neg hf, Nat.add_zero, ih]
      by_cases hj : j = n
      · subst hj
        simp [hf]
      · by_cases hjn : j < n
        · simp [hjn, show j < n + 1 by omega]
        · simp [hjn, show ¬(j < n + 1) by omega]

theorem handle_word_fold_testBit (intBits off word ret : Nat) :
    ∀ (m j : Nat),
      ((List.range m).foldl
        (fun r b => if word.testBit b && decide (off + b < intBits)
          then r ||| (1 <<< (off + b)) else r) ret).testBit j
      = (ret.testBit j
         || (decide (off ≤ j) && decide (j < off + m) && word.testBit (j - off)
             && decide (j < intBits))) := by
  intro m
  induction m with
  | zero =>
    intro j
    rw [List.range_zero, List.foldl_nil]
    by_cases hoj : off ≤ j
    · simp [show ¬(j < off + 0) by omega]
    · simp [hoj]
  | succ m ih =>
    intro j
    rw [List.range_succ, List.foldl_append, List.foldl_cons, List.foldl_nil]
    by_cases hc : (word.testBit m && decide (off + m < intBits)) = true
    · rw [if_pos hc]
      simp only [Bool.and_eq_true, decide_eq_true_eq] at hc
      rw [Nat.testBit_or, testBit_one_shiftLeft, ih]
      by_cases hj : j = off + m
      · subst hj
        simp [hc.1, hc.2, show off ≤ off + m by omega,
          show off + m < off + (m + 1) by omega, Nat.add_sub_cancel_left]
      · simp only [hj, decide_False, Bool.or_false]
        by_cases hjm : j < off + m
        · simp [hjm, show j < off + (m + 1) by omega]
        · simp [hjm, show ¬(j < off + (m + 1)) by omega]
    · rw [if_neg hc, ih]
      simp only [Bool.and_eq_true, decide_eq_true_eq, not_and, Bool.not_eq_true] at hc
      by_cases hj : j = off + m
      · subst hj
        by_cases hb : word.testBit m
        · have hni := hc hb
          simp [show ¬(off + m < off + m) by omega, hni, Nat.add_sub_cancel_left]
        · simp [show ¬(off + m < off + m) by omega, hb, Nat.add_sub_cancel_left]
      · by_cases hjm : j < off + m
        · simp [hjm, show j < off + (m + 1) by omega]
        · simp [hjm, show ¬(j < off + (m + 1)) by omega]

theorem handle_word_testBit (w intBits off word ret j : Nat) :
    (handle_word w intBits off word ret).testBit j
      = (ret.testBit j
         || (decide (off ≤ j) && decide (j < off + w) && word.testBit (j - off)
             && decide (j < intBits))) :=
  handle_word_fold_testBit intBits off word ret w j

theorem do_int_convert_testBit {N w intBits : Nat} (hw : 0 < w) (hNle : N ≤ intBits)
    {d : List Nat} (hok : WordsOk N w d) (j : Nat) :
    (do_int_convert N w intBits d).testBit j = (decide (j < N) && getBit w d j) := by
  have haux : ∀ m, m ≤ NFullyUsedWords N w → ∀ j2,
      ((List.range m).foldl
        (fun r k => if k * w < intBits then handle_word w intBits (k * w) (d.getD k 0) r
          else r) 0).testBit j2
      = (decide (j2 < m * w) && getBit w d j2) := by
    intro m
    induction m with
    | zero =>
      intro _ j2
      rw [List.range_zero, List.foldl_nil]
      simp
    | succ m ih =>
      intro hm j2
      rw [List.range_succ, List.foldl_append, List.foldl_cons, List.foldl_nil]
      have h1 : (m + 1) * w ≤ NFullyUsedWords N w * w := Nat.mul_le_mul_right w hm
      have h2 : NFullyUsedWords N w * w ≤ N := Nat.div_mul_le_self N w
      rw [Nat.succ_mul] at h1
      have hguard : m * w < intBits := by omega
      rw [if_pos hguard, handle_word_testBit, ih (by omega) j2]
      by_cases hc1 : j2 < m * w
      · simp [hc1, show j2 < (m + 1) * w by rw [Nat.succ_mul]; omega,
          show ¬(m * w ≤ j2) by omega]
      · by_cases hc2 : j2 < m * w + w
        · have hjint : j2 < intBits := by omega
          have hgb : (d.getD m 0).testBit (j2 - m * w) = getBit w d j2 := by
            have hform : j2 = (j2 - m * w) + m * w := by omega
            have hwo := getBit_word_offset hw d m (j2 - m * w) (by omega)
            rw [← hform] at hwo
            exact hwo.symm
          simp only [hc1, decide_False, Bool.false_and, Bool.false_or,
            show m * w ≤ j2 by omega, decide_True, hc2, hjint, Bool.true_and,
            Bool.and_true, show j2 < (m + 1) * w by rw [Nat.succ_mul]; omega]
          simpa using hgb
        · simp [hc1, hc2, show ¬(j2 < (m + 1) * w) by rw [Nat.succ_mul]; omega]
  unfold do_int_convert
  by_cases hN0 : N = 0
  · rw [if_pos hN0]
    simp [hN0]
  · rw [if_neg hN0]
    have hdm := Nat.div_add_mod N w
    have hcm : NFullyUsedWords N w * w = w * (N / w) := Nat.mul_comm _ _
    split
    next hcase =>
      obtain ⟨hmask, hguard⟩ := hcase
      have hrem : N % w ≠ 0 := fun h0 => hmask ((LastWordMask_eq_zero_iff N w).2 h0)
      have hidxw : NWords N w - 1 = N / w := by
        rw [NWords_of_rem_ne N w hrem, Nat.add_sub_cancel]
      rw [handle_word_testBit, haux (NFullyUsedWords N w) (Nat.le_refl _) j]
      have hNoff : N = NFullyUsedWords N w * w + N % w := by omega
      by_cases hc1 : j < NFullyUsedWords N w * w
      · simp [hc1, show j < N by omega, show ¬(NFullyUsedWords N w * w ≤ j) by omega]
      · have hrw : Nat.mod_lt N hw = Nat.mod_lt N hw := rfl
        have hremlt : N % w < w := Nat.mod_lt _ hw
        by_cases hc2 : j < N
        · have hoffle : NFullyUsedWords N w * w ≤ j := by omega
          have hjmr : j - NFullyUsedWords N w * w < N % w := by omega
          have hjww : j < NFullyUsedWords N w * w + w := by omega
          have hjint : j < intBits := by omega
          have hmaskbit : ((d.getD (NWords N w - 1) 0 &&& LastWordMask N w).testBit
              (j - NFullyUsedWords N w * w)) = getBit w d j := by
            rw [Nat.testBit_and]
            unfold LastWordMask NBitsRem
            rw [Nat.testBit_two_pow_sub_one]
            have hgb : (d.getD (N / w) 0).testBit (j - NFullyUsedWords N w * w)
                = getBit w d j := by
              have hform : j = (j - NFullyUsedWords N w * w) + (N / w) * w := by
                have : NFullyUsedWords N w * w = N / w * w := rfl
                omega
              have hwo := getBit_word_offset hw d (N / w) (j - NFullyUsedWords N w * w)
                (by omega)
              rw [← hform] at hwo
              exact hwo.symm
            rw [hidxw, hgb]
            simp [hjmr]
          rw [hmaskbit]
          simp [hc1, hc2, hoffle, hjww, hjint]
        · simp only [hc1, decide_False, Bool.false_and, Bool.false_or, hc2,
            Bool.false_eq]
          by_cases hc3 : j < NFullyUsedWords N w * w + w
          · have hge : N % w ≤ j - NFullyUsedWords N w * w := by omega
            rw [Nat.testBit_and]
            unfold LastWordMask NBitsRem
            rw [Nat.testBit_two_pow_sub_one]
            simp [show ¬(j - NFullyUsedWords N w * w < N % w) by omega]
          · simp [hc3]
    next hcase =>
      have hrem : N % w = 0 := by
        by_contra hrem
        apply hcase
        refine ⟨fun h0 => hrem ((LastWordMask_eq_zero_iff N w).1 h0), by omega⟩
      have h5 : NFullyUsedWords N w * w = N := by omega
      rw [haux (NFullyUsedWords N w) (Nat.le_refl _) j, h5]

theorem do_int_convert_eq_sum {N w intBits : Nat} (hw : 0 < w) (hNle : N ≤ intBits)
    {d : List Nat} (hok : WordsOk N w d) :
    do_int_convert N w intBits d
      = (Finset.range N).sum (fun i => if getBit w d i then 2 ^ i else 0) := by
  apply Nat.eq_of_testBit_eq
  intro j
  rw [do_int_convert_testBit hw hNle hok j, bitsSum_testBit]

-- states reachable through the public API

/-- States of the backing array reachable through the public operations:
construction (default, from an `unsigned long long`, from a string), bounds
checked single-bit writes (`set(pos, v)`, `reset(pos)`, `flip(pos)` and
in-range `operator[]` writes), bulk `set()`/`reset()`/`flip()` (also
`operator~`), the binary operators and their compound forms, the shift
operators, and stream extraction.  Binary/shift operators start from an
uninitialized C++ array: any `NWords`-long array of `w`-bit words. -/
inductive Reachable (N w : Nat) : List Nat → Prop where
  | base : Reachable N w (mk0 N w)
  | fromVal (val : Nat) (hval : val < 2 ^ 64) : Reachable N w (ofVal N w val)
  | fromStr (str : List Char) (pos n : Nat) (zc oc : Char) (d : List Nat)
      (h : ctorStr N w str pos n zc oc = .ok d) : Reachable N w d
  | setPos (d : List Nat) (i : Nat) (b : Bool) (hd : Reachable N w d) (hi : i < N) :
      Reachable N w (bitSet w d i b)
  | flipPos (d : List Nat) (i : Nat) (hd : Reachable N w d) (hi : i < N) :
      Reachable N w (bitSet w d i (!getBit w d i))
  | setAllR (d : List Nat) (hd : Reachable N w d) : Reachable N w (setAll N w d)
  | flipAllR (d : List Nat) (hd : Reachable N w d) : Reachable N w (flipAll N w d)
  | andR (junk d1 d2 : List Nat) (hj : WordsOk N w junk) (h1 : Reachable N w d1)
      (h2 : Reachable N w d2) : Reachable N w (bitAnd N w junk d1 d2)
  | orR (junk d1 d2 : List Nat) (hj : WordsOk N w junk) (h1 : Reachable N w d1)
      (h2 : Reachable N w d2) : Reachable N w (bitOr N w junk d1 d2)
  | xorR (junk d1 d2 : List Nat) (hj : WordsOk N w junk) (h1 : Reachable N w d1)
      (h2 : Reachable N w d2) : Reachable N w (bitXor N w junk d1 d2)
  | shlR (junk d : List Nat) (s : Nat) (hj : WordsOk N w junk) (hd : Reachable N w d) :
      Reachable N w (shl N w junk d s)
  | shrR (junk d : List Nat) (s : Nat) (hj : WordsOk N w junk) (hd : Reachable N w d) :
      Reachable N w (shr N w junk d s)
  | readR (inp : List Char) : Reachable N w (readOp N w inp).1

theorem reachable_Wf {N w : Nat} (hw : 0 < w) {d : List Nat} (h : Reachable N w d) :
    Wf N w d := by
  induction h with
  | base => exact Wf_mk0 N w
  | fromVal val hval => exact Wf_ofVal hw val
  | fromStr str pos n zc oc d h => exact (ctorStr_ok_spec hw str pos n zc oc d h).1
  | setPos d i b hd hi ih =>
    obtain ⟨⟨hlen, hwords⟩, hzero⟩ := ih
    have hiw : i < d.length * w := by
      have := le_NWords_mul N w hw
      rw [hlen]
      omega
    refine ⟨⟨by rw [length_bitSet]; exact hlen, words_lt_bitSet hw hwords⟩,
      fun i2 hi1 hi2 => ?_⟩
    rw [getBit_bitSet hw _ _ _ _ hiw, if_neg (by omega)]
    exact hzero i2 hi1 hi2
  | flipPos d i hd hi ih =>
    obtain ⟨⟨hlen, hwords⟩, hzero⟩ := ih
    have hiw : i < d.length * w := by
      have := le_NWords_mul N w hw
      rw [hlen]
      omega
    refine ⟨⟨by rw [length_bitSet]; exact hlen, words_lt_bitSet hw hwords⟩,
      fun i2 hi1 hi2 => ?_⟩
    rw [getBit_bitSet hw _ _ _ _ hiw, if_neg (by omega)]
    exact hzero i2 hi1 hi2
  | setAllR d hd ih => exact Wf_setAll hw ih.1
  | flipAllR d hd ih => exact Wf_flipAll hw ih.1
  | andR junk d1 d2 hj h1 h2 ih1 ih2 => exact Wf_binop hw _ hj
  | orR junk d1 d2 hj h1 h2 ih1 ih2 => exact Wf_binop hw _ hj
  | xorR junk d1 d2 hj h1 h2 ih1 ih2 => exact Wf_binop hw _ hj
  | shlR junk d s hj hd ih => exact Wf_shl hw hj d s
  | shrR junk d s hj hd ih => exact Wf_shr hw hj d s
  | readR inp => exact (readOp_spec hw inp).2.2.1

/-- Bit `i` of the raw byte view `bits()`: bit `i % 8` of byte `i / 8`, where
bytes are the little-endian bytes of the backing words. -/
def byteBit (w : Nat) (d : List Nat) (i : Nat) : Bool :=
  (byteAt w d (i / 8)).testBit (i % 8)

theorem byteBit_eq_getBit {w : Nat} (h8 : 8 ∣ w) (hw : 0 < w) (d : List Nat) (i : Nat) :
    byteBit w d i = getBit w d i := by
  obtain ⟨bpw, hbpw⟩ := h8
  have hbpw0 : 0 < bpw := by omega
  unfold byteBit byteAt getBit
  have hw8 : w / 8 = bpw := by omega
  rw [hw8, Nat.testBit_and]
  have h255 : (255 : Nat) = 2 ^ 8 - 1 := by norm_num
  rw [h255, Nat.testBit_two_pow_sub_one]
  have hm8 : i % 8 < 8 := Nat.mod_lt _ (by norm_num)
  simp only [hm8, decide_True, Bool.and_true]
  rw [Nat.testBit_shiftRight]
  have hidx : i / 8 / bpw = i / w := by
    rw [Nat.div_div_eq_div_mul]
    congr 1
    omega
  have hoff : 8 * (i / 8 % bpw) + i % 8 = i % w := by
    have e1 := Nat.div_add_mod i 8
    have e2 := Nat.div_add_mod (i / 8) bpw
    have e3 := Nat.div_add_mod i w
    rw [hidx] at e2
    have hb2 : i / 8 % bpw < bpw := Nat.mod_lt _ hbpw0
    have hb3 : i % w < w := Nat.mod_lt _ hw
    have hlink : w * (i / w) = 8 * (bpw * (i / w)) := by
      rw [hbpw]
      ring
    omega
  rw [hidx, hoff]

theorem eq_mk0_of_all_false {N w : Nat} (hw : 0 < w) {d : List Nat}
    (hok : WordsOk N w d) (hall : ∀ i, getBit w d i = false) : d = mk0 N w := by
  apply List.ext_getElem (by rw [hok.1, length_mk0])
  intro k hk1 hk2
  have hword : d.getD k 0 = 0 := by
    apply Nat.eq_of_testBit_eq
    intro p
    simp only [Nat.zero_testBit]
    by_cases hp : p < w
    · have hb := hall (p + k * w)
      rw [getBit_word_offset hw d k p hp] at hb
      exact hb
    · exact Nat.testBit_lt_two_pow
        (Nat.lt_of_lt_of_le (getD_lt_of_words hok.2 k)
          (Nat.pow_le_pow_right (by norm_num) (by omega)))
  have e1 : d.getD k 0 = d[k] := by
    rw [List.getD_eq_getElem?_getD, List.getElem?_eq_getElem hk1]
    rfl
  rw [← e1, hword]
  unfold mk0
  rw [List.getElem_replicate]

-- ====================================================================
-- claims
-- ====================================================================

/-- C1: for every capacity `N` (with the default word type `TBitsFor N`) and
every state reachable through a sequence of public operations
(default/integer/string construction, single-bit and bulk set/reset/flip,
binary and compound AND/OR/XOR, NOT, left and right shift, streaming parse),
the backing array is well formed and every bit position `≥ N` inside the
backing words is `0`, also when inspected through the raw byte view
`bits()` (`byteBit`). -/
theorem c1_unused_bit_invariant (N : Nat) (d : List Nat)
    (h : Reachable N (TBitsFor N) d) :
    Wf N (TBitsFor N) d ∧
    (∀ i, N ≤ i → i < NWords N (TBitsFor N) * TBitsFor N →
      byteBit (TBitsFor N) d i = false) := by
  have hw := TBitsFor_pos N
  have h8 := TBitsFor_dvd8 N
  have hWf := reachable_Wf hw h
  refine ⟨hWf, fun i hi1 hi2 => ?_⟩
  rw [byteBit_eq_getBit h8 hw d i]
  exact hWf.2 i hi2 hi1

theorem c1_unused_bit_invariant_witness :
    Wf 11 (TBitsFor 11)
      (shl 11 (TBitsFor 11) [65535] (ofVal 11 (TBitsFor 11) 1421) 2) ∧
    (∀ i, 11 ≤ i → i < NWords 11 (TBitsFor 11) * TBitsFor 11 →
      byteBit (TBitsFor 11)
        (shl 11 (TBitsFor 11) [65535] (ofVal 11 (TBitsFor 11) 1421) 2) i = false) :=
  c1_unused_bit_invariant 11 _
    (Reachable.shlR [65535] _ 2 (by decide) (Reachable.fromVal 1421 (by decide)))

/-- C2 (counterexample): the claim "the substring constructor copies exactly
`c = min(n, N, str.length() - pos)` characters positionally" is false on the
code: with `N = 2`, `str = "11"`, `pos = 1`, `n = 1` the constructor copies
nothing (it treats `n` as an exclusive end index, and `min(n, str.size()) = 1
≤ pos`), while the claim demands `c = 1` and bit 0 equal to
`str[1] == one` (true). -/
theorem c2_substring_ctor_counterexample :
    ¬ (∀ (N : Nat) (str : List Char) (pos n : Nat) (zc oc : Char) (d : List Nat),
        pos < str.length → 0 < N →
        ctorStr N (TBitsFor N) str pos n zc oc = .ok d →
        (∀ k, k < min n (min N (str.length - pos)) →
          getBit (TBitsFor N) d k = (str.getD (pos + k) ' ' == oc)) ∧
        (∀ j, min n (min N (str.length - pos)) ≤ j →
          getBit (TBitsFor N) d j = false)) := by
  intro h
  have hc := h 2 ['1', '1'] 1 1 '0' '1' [0] (by decide) (by decide) rfl
  have h1 := hc.1 0 (by decide)
  exact absurd h1 (by decide)

/-- C2 (amended): for every source string, `pos < str.length`, count `n` and
capacity `N > 0`, a successful substring construction copies exactly
`c = min(max(min(n, str.length) - pos, 0), N)` characters positionally — the
code uses `min(n, str.length)` as an exclusive end index of the source range,
so the copied count is `min(n, str.length) - pos` capped at `N`, not
`min(n, N, str.length - pos)`: for every `k < c`, bit `k` equals
`(str[pos + k] == one_char)`, and every bit at position `≥ c` is `0`. -/
theorem c2_substring_ctor_amended (N w : Nat) (hw : 0 < w) (str : List Char)
    (pos n : Nat) (zc oc : Char) (d : List Nat) (hpos : pos < str.length)
    (hN : 0 < N) (hok : ctorStr N w str pos n zc oc = .ok d) :
    (∀ k, k < min (min n str.length - pos) N →
      getBit w d k = (str.getD (pos + k) ' ' == oc)) ∧
    (∀ j, min (min n str.length - pos) N ≤ j → getBit w d j = false) := by
  obtain ⟨hWf, hmid, htail⟩ := ctorStr_ok_spec hw str pos n zc oc d hok
  have hL : ((str.take n).drop pos).length = min n str.length - pos := by
    rw [List.length_drop, List.length_take]
  constructor
  · intro k hk
    have hmain := hmid k (by rw [hL]; omega)
    rw [hmain]
    have hchar : ((str.take n).drop pos).getD k ' ' = str.getD (pos + k) ' ' := by
      rw [List.getD_eq_getElem?_getD, List.getD_eq_getElem?_getD, List.getElem?_drop,
        List.getElem?_take_of_lt (by omega)]
    rw [hchar]
  · intro j hj
    apply htail
    rw [hL]
    omega

theorem c2_substring_ctor_amended_witness :
    (∀ k, k < min (min 3 ("0110".toList).length - 1) 2 →
      getBit 8 [3] k = (("0110".toList).getD (1 + k) ' ' == '1')) ∧
    (∀ j, min (min 3 ("0110".toList).length - 1) 2 ≤ j → getBit 8 [3] j = false) :=
  c2_substring_ctor_amended 2 8 (by decide) "0110".toList 1 3 '0' '1' [3]
    (by decide) (by decide) rfl

/-- C3: streaming parse (`operator>>`) on capacity `N`: the target is reset
and characters are consumed one at a time positionally from bit 0; with
`c = min N (matchLen inp)` consumed characters, the unconsumed remainder of
the stream is `inp.drop c` (the first non-matching character is not
consumed), the fail indicator is set iff `N > 0` and zero characters were
consumed, bit `k` equals `(inp[k] == '1')` for `k < c`, and every bit at
position `≥ c` is `0` (partial reads are not an error). -/
theorem c3_stream_extraction (N w : Nat) (hw : 0 < w) (inp : List Char) :
    (readOp N w inp).2.1 = inp.drop (min N (matchLen inp)) ∧
    (readOp N w inp).2.2 = decide (0 < N ∧ min N (matchLen inp) = 0) ∧
    (∀ k, k < min N (matchLen inp) →
      getBit w (readOp N w inp).1 k = (inp.getD k ' ' == '1')) ∧
    (∀ j, min N (matchLen inp) ≤ j → getBit w (readOp N w inp).1 j = false) := by
  obtain ⟨h1, h2, h3, h4, h5⟩ := readOp_spec hw inp
  exact ⟨h1, h2, h4, h5⟩

theorem c3_stream_extraction_witness :
    (readOp 3 8 "10x1".toList).2.1
      = ("10x1".toList).drop (min 3 (matchLen "10x1".toList)) ∧
    (readOp 3 8 "10x1".toList).2.2
      = decide (0 < 3 ∧ min 3 (matchLen "10x1".toList) = 0) ∧
    (∀ k, k < min 3 (matchLen "10x1".toList) →
      getBit 8 (readOp 3 8 "10x1".toList).1 k = (("10x1".toList).getD k ' ' == '1')) ∧
    (∀ j, min 3 (matchLen "10x1".toList) ≤ j →
      getBit 8 (readOp 3 8 "10x1".toList).1 j = false) :=
  c3_stream_extraction 3 8 (by decide) "10x1".toList

/-- C4: for every backing state and every uninitialized array `junk` of the
right shape, bit `i` of `x << s` is bit `i - s` of `x` when `s ≤ i < N` and
`0` otherwise; bit `i` of `x >> s` is bit `i + s` of `x` when `i + s < N` and
`0` otherwise; and for `s ≥ N` both shifts produce the all-zero state. -/
theorem c4_shift_semantics (N w : Nat) (hw : 0 < w) (junk d : List Nat)
    (hj : WordsOk N w junk) (s : Nat) :
    (∀ i, getBit w (shl N w junk d s) i
      = if s ≤ i ∧ i < N then getBit w d (i - s) else false) ∧
    (∀ i, getBit w (shr N w junk d s) i
      = if i + s < N then getBit w d (i + s) else false) ∧
    (N ≤ s → shl N w junk d s = mk0 N w ∧ shr N w junk d s = mk0 N w) := by
  have hshl := fun i => getBit_shl hw hj.1 d s i
  have hshr := fun i => getBit_shr hw hj.1 d s i
  have hshl2 : ∀ i, getBit w (shl N w junk d s) i
      = if s ≤ i ∧ i < N then getBit w d (i - s) else false := by
    intro i
    rw [hshl i]
    by_cases h1 : i < N
    · rw [if_pos h1]
      by_cases h2 : s ≤ i
      · rw [if_pos h2, if_pos ⟨h2, h1⟩]
      · rw [if_neg h2, if_neg (fun hc => h2 hc.1)]
    · rw [if_neg h1, if_neg (fun hc => h1 hc.2)]
  have hshr2 : ∀ i, getBit w (shr N w junk d s) i
      = if i + s < N then getBit w d (i + s) else false := by
    intro i
    rw [hshr i]
    by_cases h1 : i < N
    · rw [if_pos h1]
    · rw [if_neg h1, if_neg (by omega)]
  refine ⟨hshl2, hshr2, fun hs => ⟨?_, ?_⟩⟩
  · apply eq_mk0_of_all_false hw (Wf_shl hw hj d s).1
    intro i
    rw [hshl2 i, if_neg (by omega)]
  · apply eq_mk0_of_all_false hw (Wf_shr hw hj d s).1
    intro i
    rw [hshr2 i, if_neg (by omega)]

theorem c4_shift_semantics_witness :
    (∀ i, getBit 16 (shl 11 16 [65535] [1421] 2) i
      = if 2 ≤ i ∧ i < 11 then getBit 16 [1421] (i - 2) else false) ∧
    (∀ i, getBit 16 (shr 11 16 [65535] [1421] 2) i
      = if i + 2 < 11 then getBit 16 [1421] (i + 2) else false) ∧
    (11 ≤ 2 → shl 11 16 [65535] [1421] 2 = mk0 11 16 ∧
      shr 11 16 [65535] [1421] 2 = mk0 11 16) :=
  c4_shift_semantics 11 16 (by decide) [65535] [1421] (by decide) 2

/-- C5: the 64-bit integer conversions `to_ullong` (and `to_ulong`, also
64-bit on the LP64 reference platform) fail with Overflow iff `N` exceeds 64,
the check happening before any extraction; when `N ≤ 64` they return exactly
the little-endian value `Σ_{i < N} bit(i) · 2^i`. -/
theorem c5_int_conversion (N w : Nat) (hw : 0 < w) (d : List Nat)
    (hok : WordsOk N w d) :
    (64 < N → to_ullong N w d = .error .Overflow ∧ to_ulong N w d = .error .Overflow) ∧
    (N ≤ 64 →
      to_ullong N w d
        = .ok ((Finset.range N).sum (fun i => if getBit w d i then 2 ^ i else 0)) ∧
      to_ulong N w d
        = .ok ((Finset.range N).sum (fun i => if getBit w d i then 2 ^ i else 0))) := by
  constructor
  · intro hbig
    unfold to_ullong to_ulong
    rw [if_pos hbig]
    exact ⟨rfl, rfl⟩
  · intro hle
    unfold to_ullong to_ulong
    rw [if_neg (by omega), do_int_convert_eq_sum hw hle hok]
    exact ⟨rfl, rfl⟩

theorem c5_int_conversion_witness :
    to_ullong 65 64 (mk0 65 64) = .error .Overflow ∧
    to_ullong 64 64 (ofVal 64 64 176)
      = .ok ((Finset.range 64).sum
          (fun i => if getBit 64 (ofVal 64 64 176) i then 2 ^ i else 0)) :=
  ⟨((c5_int_conversion 65 64 (by decide) (mk0 65 64)
      ⟨length_mk0 65 64, words_lt_mk0 65 64⟩).1 (by decide)).1,
   ((c5_int_conversion 64 64 (by decide) (ofVal 64 64 176)
      (Wf_ofVal (by decide) 176).1).2 (by decide)).1⟩

/-- C6: hash consistency — for every capacity and any two backing states
reachable through the public API, if `operator==` reports them equal then
`hash_code` agrees. -/
theorem c6_hash_consistency (N w : Nat) (hw : 0 < w) (d1 d2 : List Nat)
    (h1 : Reachable N w d1) (h2 : Reachable N w d2)
    (heq : eqOp N w d1 d2 = true) : hash_code N w d1 = hash_code N w d2 := by
  rw [eq_data_of_eqOp hw (reachable_Wf hw h1) (reachable_Wf hw h2) heq]

theorem c6_hash_consistency_witness :
    hash_code 4 8 (ofVal 4 8 5)
      = hash_code 4 8 (bitSet 8 (bitSet 8 (mk0 4 8) 0 true) 2 true) :=
  c6_hash_consistency 4 8 (by decide) _ _
    (Reachable.fromVal 5 (by decide))
    (Reachable.setPos (bitSet 8 (mk0 4 8) 0 true) 2 true
      (Reachable.setPos (mk0 4 8) 0 true Reachable.base (by decide)) (by decide))
    (by decide)

/-- C7 (counterexample): the claim's concrete scenario is wrong — for
`N = 11`, after setting bit 10 and bit 0, `to_string()` is NOT
`"10000000011"` (which has ones at positions 0, 9 and 10); under the claim's
own positional mapping it is `"10000000001"`. -/
theorem c7_to_string_counterexample :
    to_string 11 (TBitsFor 11) '0' '1'
        (bitSet (TBitsFor 11) (bitSet (TBitsFor 11) (mk0 11 (TBitsFor 11)) 10 true)
          0 true)
      ≠ "10000000011".toList := by decide

/-- C7 (amended): `to_string(zero, one)` returns exactly `N` characters,
character `i` being `one` iff bit `i` is set (defaults `'0'`/`'1'`); for the
scenario `N = 11`, set bit 10 then bit 0, the result is `"10000000001"`
(ones at positions 0 and 10). -/
theorem c7_to_string (N w : Nat) (zero one : Char) (d : List Nat) :
    ((to_string N w zero one d).length = N ∧
     ∀ i, i < N → (to_string N w zero one d).getD i ' '
        = if getBit w d i then one else zero) ∧
    to_string 11 (TBitsFor 11) '0' '1'
        (bitSet (TBitsFor 11) (bitSet (TBitsFor 11) (mk0 11 (TBitsFor 11)) 10 true)
          0 true)
      = "10000000001".toList := by
  exact ⟨⟨to_string_length N w zero one d,
    fun i hi => to_string_getD zero one d i hi⟩, by decide⟩

theorem c7_to_string_witness :
    (to_string 3 8 '0' '1' [5]).getD 0 ' ' = '1' :=
  (((c7_to_string 3 8 '0' '1' [5]).1.2) 0 (by decide)).trans (by decide)

/-- C8: vacuous truth at zero capacity — for `N = 0` and any backing state,
`all()` is true, `any()` is false, `none()` is true and `count()` is 0. -/
theorem c8_zero_capacity (w : Nat) (d : List Nat) :
    allOp 0 w d = true ∧ anyOp 0 w d = false ∧ noneOp 0 w d = true ∧
    countOp 0 w d = 0 := by
  unfold allOp noneOp countOp anyOp NFullyUsedWords LastWordMask NBitsRem
  simp

/-- C9: the string/substring constructor raises OutOfRange iff the starting
position is beyond the source length (`str.length ≤ pos`, i.e.
`pos >= str.size()`) and the capacity is non-zero; for `N = 0` the check is
skipped and no OutOfRange is raised for any `pos`. -/
theorem c9_ctor_out_of_range (N w : Nat) (str : List Char) (pos n : Nat)
    (zc oc : Char) :
    ctorStr N w str pos n zc oc = .error .OutOfRange ↔ str.length ≤ pos ∧ N ≠ 0 :=
  ctorStr_error_iff N w str pos n zc oc

/-- C10: `operator==` depends only on bit positions below `N` — for any two
backing states (including states whose unused bits were corrupted through the
writable `bits()` view, i.e. only `WordsOk` is assumed, not the invariant),
equality holds iff the states agree at every bit position `i < N`; in
particular at `N = 0` any two states compare equal. -/
theorem c10_eq_semantics (N w : Nat) (hw : 0 < w) (d1 d2 : List Nat)
    (h1 : WordsOk N w d1) (h2 : WordsOk N w d2) :
    (eqOp N w d1 d2 = true ↔ ∀ i, i < N → getBit w d1 i = getBit w d2 i) ∧
    (N = 0 → eqOp N w d1 d2 = true) := by
  refine ⟨eqOp_iff hw h1 h2, fun hN => ?_⟩
  subst hN
  exact (eqOp_iff hw h1 h2).2 (fun i hi => absurd hi (by omega))

theorem c10_eq_semantics_witness :
    (eqOp 4 8 [16] [0] = true ↔ ∀ i, i < 4 → getBit 8 [16] i = getBit 8 [0] i) ∧
    ((4 : Nat) = 0 → eqOp 4 8 [16] [0] = true) :=
  c10_eq_semantics 4 8 (by decide) [16] [0] (by decide) (by decide)

end CompactBitset
